import Mathlib

/-!
Verification development for the FIT-to-YAML block summarizer
(`fit_to_yaml_blocks.py`).  The Python functions manipulating decoded FIT
messages are shallowly embedded here: numeric field values become rationals
(ℚ); IEEE special values (NaN, ±Inf), which several claims are about, are
modelled by the explicit `EF` type; a raw FIT field value, which may fail
`float()` coercion, is modelled by `Val`; Python `None` becomes `Option`; a
raised exception aborting a computation becomes `Except`.  Timestamps become
rationals (seconds); timezone normalization, which never changes the instant,
is dropped.  A Python `dict` built by insertion becomes an association list
with in-place update (`upsert`), which preserves the dict's key order.
-/

unseal Rat.add Rat.mul Rat.sub Rat.inv

deriving instance DecidableEq for Except

namespace Fit

/-- A Python float: a finite rational or one of the IEEE specials. -/
inductive EF where
  | fin (q : ℚ)
  | nan
  | inf
  | ninf
deriving DecidableEq, Repr

/-- A raw field value as handed to `float()` / comparisons: either a numeric
(already a float) or a value on which numeric coercion raises. -/
inductive Val where
  | num (e : EF)
  | bad
deriving DecidableEq, Repr

/-- `float(v)` under `try/except` (the `_f` helper of `extract_records`):
missing or non-coercible values give `None`. -/
def pyFloat : Option Val → Option EF
  | some (.num e) => some e
  | some .bad => none
  | none => none

/-- Python `a or b` on optional floats: `a` is replaced by `b` when `a` is
falsy, i.e. `None` or (`0.0`/`-0.0`).  NaN and Inf are truthy. -/
def pyOr (a b : Option EF) : Option EF :=
  match a with
  | none => b
  | some (.fin q) => if q = 0 then b else some (.fin q)
  | some x => some x

/-- The `_valid` normalizer of `extract_records` (always called with
`allow_zero=False`): exact zero, NaN and ±Inf collapse to `None`. -/
def pyValid : Option EF → Option EF
  | some (.fin q) => if q = 0 then none else some (.fin q)
  | _ => none

/-- Python float division `x / y`, `None` when `ZeroDivisionError` is raised
(any division by exact 0.0). -/
def efDiv (x y : EF) : Option EF :=
  if y = .fin 0 then none
  else
    match x, y with
    | .nan, _ => some .nan
    | _, .nan => some .nan
    | .fin a, .fin b => some (.fin (a / b))
    | .fin _, .inf => some (.fin 0)
    | .fin _, .ninf => some (.fin 0)
    | .inf, .fin b => some (if b < 0 then .ninf else .inf)
    | .ninf, .fin b => some (if b < 0 then .inf else .ninf)
    | .inf, .inf => some .nan
    | .inf, .ninf => some .nan
    | .ninf, .inf => some .nan
    | .ninf, .ninf => some .nan

/-- Python float multiplication (no exception). -/
def efMul : EF → EF → EF
  | .nan, _ => .nan
  | _, .nan => .nan
  | .fin a, .fin b => .fin (a * b)
  | .fin a, .inf => if a = 0 then .nan else if a < 0 then .ninf else .inf
  | .fin a, .ninf => if a = 0 then .nan else if a < 0 then .inf else .ninf
  | .inf, .fin b => if b = 0 then .nan else if b < 0 then .ninf else .inf
  | .ninf, .fin b => if b = 0 then .nan else if b < 0 then .inf else .ninf
  | .inf, .inf => .inf
  | .inf, .ninf => .ninf
  | .ninf, .inf => .ninf
  | .ninf, .ninf => .inf

/-- Python float `<` (any comparison with NaN is false). -/
def efLt : EF → EF → Bool
  | .fin a, .fin b => a < b
  | .nan, _ => false
  | _, .nan => false
  | .ninf, .ninf => false
  | .ninf, _ => true
  | _, .ninf => false
  | .inf, _ => false
  | .fin _, .inf => true

/-- `x / c` for a positive finite constant `c` (used with 10, 100 and 65536;
never raises because `c ≠ 0`). -/
def efScale (e : EF) (c : ℚ) : EF :=
  match e with
  | .fin a => .fin (a / c)
  | x => x

/-- A float is finite (not NaN, not ±Inf). -/
def efFinite : EF → Bool
  | .fin _ => true
  | _ => false

/-- Python `round` to the nearest integer, ties to even (banker's rounding),
on the exact rational value. -/
def roundHalfEven (x : ℚ) : ℤ :=
  let f : ℤ := ⌊x⌋
  let r : ℚ := x - f
  if r < 1 / 2 then f
  else if 1 / 2 < r then f + 1
  else if f % 2 = 0 then f else f + 1

/-- Python `round(x, n)` on the exact rational value. -/
def roundTo (n : ℕ) (x : ℚ) : ℚ :=
  (roundHalfEven (x * 10 ^ n) : ℚ) / 10 ^ n

/-- `round(x, n)` on a float: with an `ndigits` argument Python returns a
NaN / infinity unchanged instead of raising. -/
def efRound (n : ℕ) (e : EF) : EF :=
  match e with
  | .fin q => .fin (roundTo n q)
  | x => x

/-- `statistics.mean` (meaningful only on nonempty lists). -/
def listMean (l : List ℚ) : ℚ :=
  l.sum / l.length

/-- Python `str.lower()` (ASCII case folding, which covers every keyword and
intensity value the classifier compares). -/
def sLower (s : String) : String :=
  String.mk (s.data.map Char.toLower)

/-- `needle` is a prefix of `hay`. -/
def listPrefix : List Char → List Char → Bool
  | [], _ => true
  | _ :: _, [] => false
  | a :: as, b :: bs => a == b && listPrefix as bs

/-- `needle` occurs somewhere in `hay`. -/
def listContains : List Char → List Char → Bool
  | [], needle => needle.isEmpty
  | a :: tl, needle => listPrefix needle (a :: tl) || listContains tl needle

/-- Python `needle in hay`. -/
def strContains (hay needle : String) : Bool :=
  listContains hay.data needle.data

/-! ## Sample Normalizer (`extract_records`)

One raw `record` message.  Field names map to the FIT field names read by
`extract_records`: `power_stryd` is `"Power"`, `form_power_stryd` is
`"Form Power"`, `form_power_g` is `"form_power"`, `lss_stryd` /`lss_g`/
`lss_norm` are `"Leg Spring Stiffness"` / `"leg_spring_stiffness"` /
`"leg_spring_stiffness_norm"`, `air_power_stryd`/`air_power_g` are
`"Air Power"`/`"air_power"`, `air_power_pct_stryd`/`air_power_pct_g` are
`"Air Power Percent"`/`"air_power_pct"`, `vert_osc_g`/`vert_osc_stryd` are
`"vertical_oscillation"`/`"Vertical Oscillation"`, `gct_g`/`stance_time` are
`"ground_contact_time"`/`"stance_time"`.  A missing key and a key present
with value `None` both become `none`. -/
structure RawRecord where
  timestamp : Option ℚ
  power_stryd : Option Val
  heart_rate : Option Val
  form_power_stryd : Option Val
  form_power_g : Option Val
  lss_stryd : Option Val
  lss_g : Option Val
  lss_norm : Option Val
  air_power_stryd : Option Val
  air_power_g : Option Val
  air_power_pct_stryd : Option Val
  air_power_pct_g : Option Val
  vert_osc_g : Option Val
  vert_osc_stryd : Option Val
  gct_g : Option Val
  stance_time : Option Val
  cadence : Option Val
  fractional_cadence : Option Val
  step_length : Option Val
  form_power_ratio : Option Val
deriving DecidableEq, Repr

/-- A record with every field absent. -/
def RawRecord.empty : RawRecord :=
  ⟨none, none, none, none, none, none, none, none, none, none, none, none,
   none, none, none, none, none, none, none, none⟩

/-- One normalized sample as appended by `extract_records`.  `heart_rate` is
passed through raw (`r.get("heart_rate")`), with no coercion or filtering. -/
structure Sample where
  timestamp : ℚ
  power : Option EF
  heart_rate : Option Val
  form_power : Option EF
  lss : Option EF
  air_power : Option EF
  air_power_pct : Option EF
  vert_osc : Option EF
  gct : Option EF
  cadence : Option EF
  step_length : Option EF
  form_power_ratio : Option EF
deriving DecidableEq, Repr

/-- The derivation of a missing form-power ratio: `form_power / power` when
both operands are present and `power != 0` (a NaN or infinite power passes
that test); a division error collapses to `None`. -/
def deriveRatio (fpr fp p : Option EF) : Option EF :=
  match fpr, fp, p with
  | none, some f, some pw => if pw ≠ .fin 0 then efDiv f pw else none
  | x, _, _ => x

/-- The derivation of a missing air-power percentage:
`100.0 * air_power / power` under the same guard. -/
def deriveAirPct (app ap p : Option EF) : Option EF :=
  match app, ap, p with
  | none, some a, some pw => if pw ≠ .fin 0 then efDiv (efMul (.fin 100) a) pw else none
  | x, _, _ => x

/-- The body of the `extract_records` loop for one raw record: `none` when the
record is dropped (missing timestamp). -/
def normalizeRecord (r : RawRecord) : Option Sample :=
  match r.timestamp with
  | none => none
  | some ts =>
    let power := pyFloat r.power_stryd
    let form_power := pyOr (pyFloat r.form_power_stryd) (pyFloat r.form_power_g)
    let lss := pyOr (pyOr (pyFloat r.lss_stryd) (pyFloat r.lss_g)) (pyFloat r.lss_norm)
    let air_power := pyOr (pyFloat r.air_power_stryd) (pyFloat r.air_power_g)
    let air_power_pct := pyOr (pyFloat r.air_power_pct_stryd) (pyFloat r.air_power_pct_g)
    let vert_osc := pyOr (pyFloat r.vert_osc_g) (pyFloat r.vert_osc_stryd)
    let gct := pyOr (pyFloat r.gct_g) (pyFloat r.stance_time)
    let cadence := pyOr (pyFloat r.cadence) (pyFloat r.fractional_cadence)
    let step_length := pyFloat r.step_length
    let form_power_ratio := pyFloat r.form_power_ratio
    let form_power := pyValid form_power
    let lss := pyValid lss
    let air_power := pyValid air_power
    let air_power_pct := pyValid air_power_pct
    let vert_osc := pyValid vert_osc
    let gct := pyValid gct
    let cadence := pyValid cadence
    let step_length := pyValid step_length
    let form_power_ratio := pyValid form_power_ratio
    let form_power_ratio := deriveRatio form_power_ratio form_power power
    let air_power_pct := deriveAirPct air_power_pct air_power power
    some ⟨ts, power, r.heart_rate, form_power, lss, air_power, air_power_pct,
          vert_osc, gct, cadence, step_length, form_power_ratio⟩

/-- Timestamp order on samples (the `records.sort` key). -/
def tsLe (a b : Sample) : Prop :=
  a.timestamp ≤ b.timestamp

instance : DecidableRel tsLe :=
  fun a b => inferInstanceAs (Decidable (a.timestamp ≤ b.timestamp))

instance : IsTotal Sample tsLe := ⟨fun a b => le_total a.timestamp b.timestamp⟩

instance : IsTrans Sample tsLe := ⟨fun _ _ _ h h2 => le_trans h h2⟩

/-- `extract_records`: normalize each raw record, then sort by timestamp. -/
def extract_records (rs : List RawRecord) : List Sample :=
  List.insertionSort tsLe (rs.filterMap normalizeRecord)

/-- An optional float is absent or finite-and-nonzero — the state the
`_valid` filter establishes for the nine zero-invalid fields. -/
def okField : Option EF → Bool
  | none => true
  | some (.fin q) => q ≠ 0
  | some _ => false

/-- An optional float is absent or finite. -/
def okFinOpt : Option EF → Bool
  | none => true
  | some e => efFinite e

/-- An optional raw value is absent, non-numeric, or finite. -/
def okFinVal : Option Val → Bool
  | some (.num e) => efFinite e
  | _ => true

/-- What claim C4 asserts of one emitted sample: no field (power and the raw
heart rate included) is non-finite, and none of the nine zero-invalid fields
is exactly zero. -/
def sampleClaimOK (s : Sample) : Bool :=
  okFinOpt s.power && okFinVal s.heart_rate &&
  okField s.form_power && okField s.lss && okField s.air_power &&
  okField s.air_power_pct && okField s.vert_osc && okField s.gct &&
  okField s.cadence && okField s.step_length && okField s.form_power_ratio

/-- The nine zero-invalid fields restricted to their directly-extracted
(non-derived) members: these the `_valid` filter fully protects. -/
def sampleDirectOK (s : Sample) : Bool :=
  okField s.form_power && okField s.lss && okField s.air_power &&
  okField s.vert_osc && okField s.gct &&
  okField s.cadence && okField s.step_length

/-- All nine zero-invalid fields, the two derivable ones included. -/
def sampleNineOK (s : Sample) : Bool :=
  okField s.form_power && okField s.lss && okField s.air_power &&
  okField s.air_power_pct && okField s.vert_osc && okField s.gct &&
  okField s.cadence && okField s.step_length && okField s.form_power_ratio

/-! ## HR zones (`extract_hr_zones`, `hr_zone_label`,
`compute_zone_distribution`) -/

/-- A zone table: label, `min_bpm`, `max_bpm`, in dict insertion order. -/
structure ZoneDef where
  zones : List (String × ℚ × ℚ)
deriving DecidableEq, Repr

/-- The zone-building loop of `extract_hr_zones` over the (already sorted)
boundary list, threading the running `min_bpm` and the zone index. -/
def buildZones : List ℚ → ℚ → ℕ → List (String × ℚ × ℚ)
  | [], _, _ => []
  | h :: t, minb, i => ("Z" ++ toString (i + 1), minb, h) :: buildZones t (h + 1) (i + 1)

/-- `extract_hr_zones` from the collected boundary values (`zones_raw`): sort
ascending, then build contiguous zones starting at 0; `None` when no
boundaries were found. -/
def extract_hr_zones (zonesRaw : List ℚ) : Option ZoneDef :=
  if zonesRaw = [] then none
  else some ⟨buildZones (List.insertionSort (· ≤ ·) zonesRaw) 0 0⟩

/-- `hr_zone_label`: the first zone whose inclusive bounds contain the
value. -/
def hr_zone_label (zd : ZoneDef) (hr : ℚ) : Option String :=
  (zd.zones.find? fun z => decide (z.2.1 ≤ hr) && decide (hr ≤ z.2.2)).map (·.1)

/-- A per-sample record as consumed by the block-level analyzers
(`records_for_lap` output): timestamp, power (a raw float which downstream
re-coerces), heart rate. -/
structure BRec where
  timestamp : ℚ
  power : Option Val
  heart_rate : Option ℚ
deriving DecidableEq, Repr

/-- `zone_counts[zone] += 1` on the association list (the key is present). -/
def bumpCount (l : List (String × ℕ)) (k : String) : List (String × ℕ) :=
  l.map fun p => if p.1 = k then (p.1, p.2 + 1) else p

/-- One iteration of the sample loop of `compute_zone_distribution`:
skip `None`/zero values, classify, and count only labels that are truthy and
present in `zone_counts`. -/
def zoneFoldStep (classifier : ZoneDef → ℚ → Option String) (zd : ZoneDef)
    (acc : List (String × ℕ)) (r : BRec) : List (String × ℕ) :=
  match r.heart_rate with
  | none => acc
  | some v =>
    if v = 0 then acc
    else
      match classifier zd v with
      | some z => if z ≠ "" ∧ acc.any (·.1 = z) then bumpCount acc z else acc
      | none => acc

/-- `compute_zone_distribution` specialised to the `heart_rate` value key;
the classifier is a parameter as in the source. -/
def compute_zone_distribution (records : List BRec) (zdOpt : Option ZoneDef)
    (classifier : ZoneDef → ℚ → Option String) : Option (List (String × ℚ)) :=
  match zdOpt with
  | none => none
  | some zd =>
    let init := zd.zones.map fun z => (z.1, (0 : ℕ))
    let cnts := records.foldl (zoneFoldStep classifier zd) init
    let total := (cnts.map (·.2)).sum
    if total = 0 then none
    else some (cnts.map fun c => (c.1 ++ "_pct", roundTo 1 (100 * c.2 / total)))

/-! ## Aerobic-decoupling drift (`compute_hr_drift_pct`) -/

/-- Order on (timestamp, hr) pairs used to sort the valid records. -/
def pairTsLe (a b : ℚ × ℚ) : Prop :=
  a.1 ≤ b.1

instance : DecidableRel pairTsLe :=
  fun a b => inferInstanceAs (Decidable (a.1 ≤ b.1))

instance : IsTotal (ℚ × ℚ) pairTsLe := ⟨fun a b => le_total a.1 b.1⟩

instance : IsTrans (ℚ × ℚ) pairTsLe := ⟨fun _ _ _ h h2 => le_trans h h2⟩

/-- The valid-record filter of `compute_hr_drift_pct`: keep (timestamp, hr)
for samples with a heart rate strictly above 0.  (In the embedding a `BRec`
always carries a timestamp, so the source's `is not None` timestamp check is
vacuous.) -/
def driftValid (recs : List BRec) : List (ℚ × ℚ) :=
  recs.filterMap fun r =>
    match r.heart_rate with
    | some h => if 0 < h then some (r.timestamp, h) else none
    | none => none

/-- `compute_hr_drift_pct`: ≥20 valid samples, ≥480 s span, split at the
temporal midpoint, ≥10 samples in each half, drift =
`(mean2/mean1 − 1) * 100` rounded to 2 decimals. -/
def compute_hr_drift_pct (recs : List BRec) : Option ℚ :=
  if recs = [] then none
  else
    let valid := driftValid recs
    if valid.length < 20 then none
    else
      let sortedv := List.insertionSort pairTsLe valid
      match sortedv, sortedv.getLast? with
      | v0 :: _, some vL =>
        let span := vL.1 - v0.1
        if span < 480 then none
        else
          let mid := span / 2
          let halves := sortedv.partition fun v => decide (v.1 - v0.1 ≤ mid)
          let firstHrs := halves.1.map (·.2)
          let secondHrs := halves.2.map (·.2)
          if firstHrs.length < 10 ∨ secondHrs.length < 10 then none
          else
            let hr1 := listMean firstHrs
            let hr2 := listMean secondHrs
            if hr1 ≤ 0 then none
            else some (roundTo 2 ((hr2 / hr1 - 1) * 100))
      | _, _ => none

/-- The block-eligibility guard of `build_blocks_from_fit` around
`compute_hr_drift_pct`: non-empty record slice, rounded duration ≥ 8 min,
and block type warm-up / work / float. -/
def blockDrift (btype : String) (durationMin : Option ℚ) (recs : List BRec) :
    Option ℚ :=
  if (!recs.isEmpty) &&
      (match durationMin with | some d => decide (8 ≤ d) | none => false) &&
      (btype == "warmup" || btype == "work" || btype == "float") then
    compute_hr_drift_pct recs
  else none

/-! ## Power-band statistics (`compute_power_band_stats`) -/

/-- One iteration of the counting loop: skip `None` and non-coercible powers,
then classify strictly below / strictly above / otherwise within. -/
def bandFoldStep (tmin tmax : EF) (c : ℕ × ℕ × ℕ) (r : BRec) : ℕ × ℕ × ℕ :=
  match r.power with
  | none => c
  | some .bad => c
  | some (.num e) =>
    if efLt e tmin then (c.1 + 1, c.2.1, c.2.2)
    else if efLt tmax e then (c.1, c.2.1, c.2.2 + 1)
    else (c.1, c.2.1 + 1, c.2.2)

/-- `compute_power_band_stats`, returning `(below, in, above)` percentages
each rounded to 1 decimal.  Empty input and zero valid samples both return
all-zero. -/
def compute_power_band_stats (recs : List BRec) (tmin tmax : EF) : ℚ × ℚ × ℚ :=
  if recs = [] then (0, 0, 0)
  else
    let c := recs.foldl (bandFoldStep tmin tmax) (0, 0, 0)
    let total := c.1 + c.2.1 + c.2.2
    if total = 0 then (0, 0, 0)
    else
      (roundTo 1 (100 * c.1 / total), roundTo 1 (100 * c.2.1 / total),
       roundTo 1 (100 * c.2.2 / total))

/-! ## Plan steps, power targets and the vendor decoder -/

/-- One `workout_step` message, with the fields the engine reads.  `Val`
fields may hold non-coercible values; a missing key and a key present with
`None` both become `none`. -/
structure Step where
  duration_type : Option String
  duration_time : Option ℚ
  repeat_steps : Option ℕ
  duration_step : Option ℕ
  intensity : Option String
  step_name : Option String
  target_type : Option String
  custom_target_power_low : Option Val
  custom_target_power_high : Option Val
  custom_target_value_low : Option Val
  custom_target_value_high : Option Val
deriving DecidableEq, Repr

/-- The empty dict used when a step index is out of range. -/
def Step.empty : Step :=
  ⟨none, none, none, none, none, none, none, none, none, none, none⟩

/-- `extract_power_target`: `Except.error` models the uncaught exception that
`float()` raises on a non-coercible target value. -/
def extract_power_target (s : Step) : Except Unit (Option EF × Option EF) :=
  let low0 := s.custom_target_power_low
  let high0 := s.custom_target_power_high
  let lh : Option Val × Option Val :=
    if low0 = none ∨ high0 = none then
      (s.custom_target_value_low, s.custom_target_value_high)
    else (low0, high0)
  match lh with
  | (some lv, some hv) =>
    if (match s.target_type with
        | some t => sLower t != "power"
        | none => false) then
      .ok (none, none)
    else
      match lv, hv with
      | .num le, .num he =>
        if efLt (.fin 1000) le ∧ efLt le (.fin 10000) then
          .ok (some (efScale le 10), some (efScale he 10))
        else if efLt (.fin 10000) le ∧ efLt le (.fin 100000) then
          .ok (some (efScale le 100), some (efScale he 100))
        else .ok (some le, some he)
      | _, _ => .error ()
  | _ => .ok (none, none)

/-- One vendor `unknown_140` message: `unknown_7` (raw VO2) and `unknown_9`
(recovery minutes). -/
structure Msg140 where
  unknown_7 : Option Val
  unknown_9 : Option Val
deriving DecidableEq, Repr

/-- Python `int()` truncation toward zero on a rational. -/
def pyIntOfRat (q : ℚ) : ℤ :=
  if 0 ≤ q then ⌊q⌋ else ⌈q⌉

/-- `int(raw)` under `try/except`: non-numeric, NaN and infinite values
raise, yielding `None`. -/
def pyInt : Val → Option ℤ
  | .num (.fin q) => some (pyIntOfRat q)
  | _ => none

/-- Processing one `unknown_140` message: `unknown_7` (when present) rewrites
the VO2 slot — to `None` on coercion failure — and `unknown_9` likewise
rewrites the recovery slot. -/
def decode140Step (st : Option EF × Option ℤ) (m : Msg140) :
    Option EF × Option ℤ :=
  let v := match m.unknown_7 with
    | none => st.1
    | some (.num e) => some (efScale (efMul e (.fin (7 / 2))) 65536)
    | some .bad => none
  let r := match m.unknown_9 with
    | none => st.2
    | some raw => pyInt raw
  (v, r)

/-- The `unknown_140` scan: fold over the messages, stopping early once both
values are present. -/
def decode140 : List Msg140 → Option EF × Option ℤ → Option EF × Option ℤ
  | [], st => st
  | m :: ms, st =>
    let st2 := decode140Step st m
    if st2.1 ≠ none ∧ st2.2 ≠ none then st2 else decode140 ms st2

/-! ## Step-sequence expander and lap matcher -/

/-- `str()` of a raw field value; non-numeric objects stringify to text that
contains none of the classifier keywords, modelled as the empty string. -/
def valStr : Val → String
  | .num (.fin q) => toString q
  | .num .nan => "nan"
  | .num .inf => "inf"
  | .num .ninf => "-inf"
  | .bad => ""

/-- One entry of the flattened `step_sequence`: a direct step reference or a
repeat marker carrying the index range to replay. -/
inductive SeqEntry where
  | step (i : ℕ)
  | rep (block : List ℕ)
deriving DecidableEq, Repr

/-- The flattening of one plan step at index `i`: a `"repeat"` duration type
yields a marker whose block is `range(duration_step, i)` when the explicit
back-reference exists, else `range(max(0, i - repeat_steps), i)` with
`repeat_steps` defaulting to 2. -/
def stepSeqEntry (i : ℕ) (s : Step) : SeqEntry :=
  if strContains (sLower (s.duration_type.getD "")) "repeat" then
    match s.duration_step with
    | some ds => .rep (List.range' ds (i - ds))
    | none => .rep (List.range' (i - s.repeat_steps.getD 2) (i - (i - s.repeat_steps.getD 2)))
  else .step i

/-- `step_sequence`: every plan step contributes exactly one entry, in
order. -/
def buildStepSequence (steps : List Step) : List SeqEntry :=
  steps.enum.map fun p => stepSeqEntry p.1 p.2

/-- `steps[j].get("duration_time", 0)`. -/
def stepDurationAt (steps : List Step) (j : ℕ) : ℚ :=
  ((steps.get? j).bind Step.duration_time).getD 0

/-- One executed lap with the fields the engine reads (`lap_power` is the
Stryd `"Lap Power"` field). -/
structure Lap where
  start_time : Option ℚ
  total_timer_time : Option ℚ
  total_distance : Option ℚ
  avg_heart_rate : Option ℚ
  lap_power : Option ℚ
  avg_power : Option ℚ
deriving DecidableEq, Repr

/-- The mismatch-branch window scan (`for check_idx in range(...)` with
`break` on the first step entry within tolerance). -/
def searchIdxs (steps : List Step) (seq : List SeqEntry) (lapDur : ℚ) :
    List ℕ → Option ℕ
  | [] => none
  | c :: rest =>
    match seq.get? c with
    | some (.step k) =>
      if |lapDur - stepDurationAt steps k| < 10 then some k
      else searchIdxs steps seq lapDur rest
    | _ => searchIdxs steps seq lapDur rest

/-- The matcher's cursor (`seq_idx`) and the `lap_to_step` list built so
far. -/
structure MatchState where
  seqIdx : ℕ
  assigned : List ℕ
deriving DecidableEq, Repr

/-- One iteration of the lap loop of `build_blocks_from_fit` (lines
842–898): resolve a leading repeat marker by advancing past it, then match
by duration within 10 s (advancing the cursor unless the next entry is a
repeat marker), else search the window `range(max(0, seq_idx - 5),
min(len(seq), seq_idx + 5))` and fall back to the cursor's step. -/
def matchStep (steps : List Step) (seq : List SeqEntry) (st : MatchState)
    (lap : Lap) : MatchState :=
  let lapDur := lap.total_timer_time.getD 0
  if st.seqIdx < seq.length then
    let resolved : ℕ × SeqEntry :=
      match seq.get? st.seqIdx with
      | some (.rep b) =>
        match seq.get? (st.seqIdx + 1) with
        | some e => (st.seqIdx + 1, e)
        | none => (st.seqIdx + 1, .rep b)
      | some e => (st.seqIdx, e)
      | none => (st.seqIdx, .rep [])
    match resolved with
    | (c, .step j) =>
      if |lapDur - stepDurationAt steps j| < 10 then
        let nextIdx :=
          match seq.get? (c + 1) with
          | some (.rep _) => c
          | some _ => c + 1
          | none => c + 1
        ⟨nextIdx, st.assigned ++ [j]⟩
      else
        let lo := c - 5
        let hi := min seq.length (c + 5)
        match searchIdxs steps seq lapDur (List.range' lo (hi - lo)) with
        | some k => ⟨c, st.assigned ++ [k]⟩
        | none => ⟨c, st.assigned ++ [j]⟩
    | (c, .rep _) => ⟨c, st.assigned⟩
  else
    ⟨st.seqIdx,
     st.assigned ++ [(st.assigned.getLast?).getD (steps.length - 1)]⟩

/-- The whole matching pass: `lap_to_step` after walking every lap. -/
def matchLaps (steps : List Step) (seq : List SeqEntry) (laps : List Lap) :
    List ℕ :=
  (laps.foldl (matchStep steps seq) ⟨0, []⟩).assigned

/-- `if dur and float(dur) >= 30` for lap `k`. -/
def lapIsReal (laps : List Lap) (k : ℕ) : Bool :=
  match (laps.get? k).bind Lap.total_timer_time with
  | some d => decide (d ≠ 0) && decide (30 ≤ d)
  | none => false

/-- The backward walk of the post-pass, from index `k` down; index 0 is
reached without being tested. -/
def findLastRealLapFrom (laps : List Lap) : ℕ → ℕ
  | 0 => 0
  | k + 1 => if lapIsReal laps (k + 1) then k + 1 else findLastRealLapFrom laps k

/-- `last_real_lap_idx` as computed by the post-pass. -/
def findLastRealLap (laps : List Lap) : ℕ :=
  findLastRealLapFrom laps (laps.length - 1)

/-- The cool-down post-pass (lines 903–921): when the sequence has more than
one entry, its final entry is a step, and that step's intensity is
`"cooldown"`, force-assign it to the last ≥30 s lap. -/
def postPass (steps : List Step) (seq : List SeqEntry) (laps : List Lap)
    (lts : List ℕ) : List ℕ :=
  if 1 < seq.length then
    match seq.getLast? with
    | some (.step j) =>
      match steps.get? j with
      | some cs =>
        if cs.intensity = some "cooldown" then
          let k := findLastRealLap laps
          if k < lts.length then lts.set k j else lts
        else lts
      | none => lts
    | _ => lts
  else lts

/-- The full lap→step assignment: flatten, match, post-pass. -/
def assignSteps (steps : List Step) (laps : List Lap) : List ℕ :=
  let seq := buildStepSequence steps
  postPass steps seq laps (matchLaps steps seq laps)

/-! ## Block classification and assembly -/

/-- `classify_block_type`: keyword/intensity hints first, then positional
fallbacks. -/
def classify_block_type (step : Step) (lap_index total_laps : ℕ) : String :=
  let intensity := sLower (step.intensity.getD "")
  let nameVal : Option String :=
    match step.step_name with
    | some s => if s = "" then none else some s
    | none => none
  let nameVal : Option String :=
    match nameVal with
    | some s => some s
    | none =>
      match step.custom_target_value_high with
      | some (.num (.fin q)) => if q = 0 then none else some (valStr (.num (.fin q)))
      | some v => some (valStr v)
      | none => none
  let step_text := sLower (nameVal.getD "")
  if strContains step_text "warm" || strContains step_text "wu" ||
      intensity == "warmup" then "warmup"
  else if strContains step_text "cool" || strContains step_text "cd" ||
      intensity == "cooldown" then "cooldown"
  else if strContains step_text "rest" || strContains step_text "recover" ||
      intensity == "recovery" || intensity == "rest" then "float"
  else if lap_index = 0 then "warmup"
  else if lap_index = total_laps - 1 then "cooldown"
  else "work"

/-- Block key naming: singleton `warmup` / `cooldown`, index-disambiguated
`float_i` / `active_i`. -/
def blockKey (btype : String) (i : ℕ) : String :=
  if btype = "warmup" then "warmup"
  else if btype = "cooldown" then "cooldown"
  else if btype = "float" then "float_" ++ toString i
  else "active_" ++ toString i

/-- `_round` with `None` passthrough. -/
def optRound (n : ℕ) : Option ℚ → Option ℚ
  | none => none
  | some q => some (roundTo n q)

/-- Python `a or b` on optional numbers (zero is falsy). -/
def pyOrQ (a b : Option ℚ) : Option ℚ :=
  match a with
  | none => b
  | some q => if q = 0 then b else some q

/-- `records_for_lap`: the records in `[lap.start, lap.start + duration)`. -/
def records_for_lap (records : List BRec) (lap : Lap) : List BRec :=
  match lap.start_time, lap.total_timer_time with
  | some st, some dur =>
    records.filter fun r => decide (st ≤ r.timestamp) && decide (r.timestamp < st + dur)
  | _, _ => []

/-- The per-block output record (`BlockStats` fields used by the claims;
timestamps stay rational seconds). -/
structure Block where
  btype : String
  start_utc : Option ℚ
  end_utc : Option ℚ
  duration_min : Option ℚ
  distance_km : Option ℚ
  avg_hr : Option ℚ
  avg_power : Option ℚ
  target_min_w : Option EF
  target_max_w : Option EF
  pct_time_below : Option ℚ
  pct_time_in_range : Option ℚ
  pct_time_above : Option ℚ
deriving DecidableEq, Repr

/-- `blocks[key] = block` on a Python dict: update in place when the key
exists, else append. -/
def upsert {β : Type} (l : List (String × β)) (k : String) (v : β) :
    List (String × β) :=
  if l.any (·.1 = k) then l.map (fun p => if p.1 = k then (k, v) else p)
  else l ++ [(k, v)]

/-- The lap→step resolution of the block loop:
`lap_to_step[i] if i < len(lap_to_step) else len(steps) - 1`, then
`steps[step_idx]` defaulting to the empty dict. -/
def lapStepOf (steps : List Step) (lts : List ℕ) (i : ℕ) : Step :=
  (steps.get? (lts.getD i (steps.length - 1))).getD Step.empty

/-- The skip test of the block loop: final lap with duration strictly under
30 seconds. -/
def lapSkippedB (total_laps : ℕ) (i : ℕ) (lap : Lap) : Bool :=
  decide (i = total_laps - 1) &&
    (match lap.total_timer_time with | some d => decide (d < 30) | none => false)

/-- The block key lap `i` receives. -/
def lapKeyOf (steps : List Step) (lts : List ℕ) (total_laps : ℕ) (i : ℕ) :
    String :=
  blockKey (classify_block_type (lapStepOf steps lts i) i total_laps) i

/-- The body of the block loop for lap `i`: `none` when the final sub-30 s
lap is skipped, `Except.error` when `extract_power_target` raises. -/
def lapBlock (steps : List Step) (records : List BRec) (total_laps : ℕ)
    (lts : List ℕ) (i : ℕ) (lap : Lap) :
    Except Unit (Option (String × Block)) :=
  let step := lapStepOf steps lts i
  let btype := classify_block_type step i total_laps
  if lapSkippedB total_laps i lap then
    .ok none
  else
    let key := blockKey btype i
    let endT : Option ℚ :=
      match lap.start_time, lap.total_timer_time with
      | some s, some d => some (s + d)
      | _, _ => none
    let blk0 : Block :=
      ⟨btype, lap.start_time, endT,
       optRound 1 (lap.total_timer_time.map (· / 60)),
       optRound 2 (lap.total_distance.map (· / 1000)),
       optRound 0 lap.avg_heart_rate,
       optRound 0 (pyOrQ lap.lap_power lap.avg_power),
       none, none, none, none, none⟩
    match extract_power_target step with
    | .error e => .error e
    | .ok (tmin, tmax) =>
      match tmin, tmax with
      | some tn, some tx =>
        let band := compute_power_band_stats (records_for_lap records lap) tn tx
        .ok (some (key,
          { blk0 with
            target_min_w := some (efRound 0 tn),
            target_max_w := some (efRound 0 tx),
            pct_time_below := some band.1,
            pct_time_in_range := some band.2.1,
            pct_time_above := some band.2.2 }))
      | _, _ => .ok (some (key, blk0))

/-- The decoded input as far as block construction consumes it. -/
structure FitInput where
  laps : List Lap
  steps : List Step
  records : List BRec
deriving DecidableEq, Repr

inductive BuildError where
  | noLaps
  | decodeFailure
deriving DecidableEq, Repr

/-- The block loop over all laps, threading the blocks dict. -/
def buildBlocksGo (steps : List Step) (records : List BRec)
    (laps : List Lap) (lts : List ℕ) : Except Unit (List (String × Block)) :=
  laps.enum.foldlM
    (fun acc p => do
      match ← lapBlock steps records laps.length lts p.1 p.2 with
      | none => pure acc
      | some (k, b) => pure (upsert acc k b))
    []

/-- `build_blocks_from_fit` restricted to the lap/step/record pipeline: the
no-laps refusal, the lap→step assignment, and the block mapping.  Session
bookkeeping that merely copies fields into the summary is omitted. -/
def build_blocks_from_fit (input : FitInput) :
    Except BuildError (List (String × Block)) :=
  if input.laps = [] then .error .noLaps
  else
    match buildBlocksGo input.steps input.records input.laps
        (assignSteps input.steps input.laps) with
    | .ok m => .ok m
    | .error _ => .error .decodeFailure

/-! ## Spec-side characterizations (phrased from the specification text, to
be proved equal to the source embeddings above) -/

/-- A power sample that is non-null and numerically coercible. -/
def isValidPowerSample (r : BRec) : Bool :=
  match r.power with
  | some (.num _) => true
  | _ => false

/-- A valid power sample strictly below the band. -/
def isBelowSample (tmin : EF) (r : BRec) : Bool :=
  match r.power with
  | some (.num e) => efLt e tmin
  | _ => false

/-- A valid power sample strictly above the band (and not below it). -/
def isAboveSample (tmin tmax : EF) (r : BRec) : Bool :=
  match r.power with
  | some (.num e) => !efLt e tmin && efLt tmax e
  | _ => false

/-- A valid power sample within the band: neither strictly below nor strictly
above, so inclusive bounds count as within. -/
def isWithinSample (tmin tmax : EF) (r : BRec) : Bool :=
  match r.power with
  | some (.num e) => !efLt e tmin && !efLt tmax e
  | _ => false

/-- The zone label a record contributes to in the distribution: `none` for a
missing, zero, or unclassifiable heart rate (and for an untruthy label). -/
def zoneSampleLabel (zd : ZoneDef) (r : BRec) : Option String :=
  match r.heart_rate with
  | none => none
  | some v =>
    if v = 0 then none
    else
      match hr_zone_label zd v with
      | some z => if z = "" then none else some z
      | none => none

/-- A record counted in the distribution's denominator: it classifies into
some zone. -/
def zoneCounted (zd : ZoneDef) (r : BRec) : Bool :=
  (zoneSampleLabel zd r).isSome

/-- Association-list value lookup with default 0 (first occurrence wins, as
in a dict). -/
def lookupC : List (String × ℕ) → String → ℕ
  | [], _ => 0
  | p :: t, k => if p.1 = k then p.2 else lookupC t k

/-- The mismatch-window membership predicate of the claim: some step entry at
position `c` matches the lap duration within tolerance. -/
def seqStepMatches (steps : List Step) (seq : List SeqEntry) (lapDur : ℚ)
    (c : ℕ) : Prop :=
  ∃ k, seq.get? c = some (.step k) ∧ |lapDur - stepDurationAt steps k| < 10

/-- Keys contributed by a processed prefix of the enumerated lap list. -/
def psKeys (steps : List Step) (lts : List ℕ) (nLaps : ℕ)
    (ps : List (ℕ × Lap)) : List String :=
  (ps.filter fun p => !(lapSkippedB nLaps p.1 p.2)).map
    fun p => lapKeyOf steps lts nLaps p.1

/-- The block keys of the retained laps, in lap order. -/
def retainedKeys (steps : List Step) (laps : List Lap) : List String :=
  psKeys steps (assignSteps steps laps) laps.length laps.enum

/-- The indices of the retained laps. -/
def retainedIdx (laps : List Lap) : List ℕ :=
  (laps.enum.filter fun p => !(lapSkippedB laps.length p.1 p.2)).map (·.1)

/-! ## Concrete inputs used by counterexamples and witnesses -/

/-- A lap of duration `d` starting at 0 and carrying nothing else. -/
def mkLap (d : ℚ) : Lap :=
  ⟨some 0, some d, none, none, none, none⟩

/-- A timed step of duration `d` with no other fields. -/
def mkTimedStep (d : ℚ) : Step :=
  ⟨some "time", some d, none, none, none, none, none, none, none, none, none⟩

/-- A timed step of duration `d` with intensity `it`. -/
def mkIntStep (d : ℚ) (it : String) : Step :=
  ⟨some "time", some d, none, none, some it, none, none, none, none, none, none⟩

/-- C1: a plan with five 100 s steps under the cursor followed by a 300 s
step exactly five positions after it. -/
def stepsC1 : List Step :=
  [mkTimedStep 100, mkTimedStep 100, mkTimedStep 100, mkTimedStep 100,
   mkTimedStep 100, mkTimedStep 300]

def seqC1 : List SeqEntry :=
  buildStepSequence stepsC1

/-- C2, scenario C: work 400 s / float 200 s / repeat back to step 0 /
cool-down 300 s. -/
def stepsC2 : List Step :=
  [mkIntStep 400 "active", mkIntStep 200 "rest",
   { Step.empty with
      duration_type := some "repeat_until_steps_cmplt",
      duration_step := some 0, repeat_steps := some 2 },
   mkIntStep 300 "cooldown"]

/-- C2, scenario C: the nine executed laps (4 work/float cycles plus the
cool-down lap). -/
def lapsC2 : List Lap :=
  [mkLap 400, mkLap 200, mkLap 400, mkLap 200, mkLap 400, mkLap 200,
   mkLap 400, mkLap 200, mkLap 300]

/-- C2 witness: a two-step plan whose cool-down duration matches no lap, so
the matching pass never assigns it. -/
def stepsW2 : List Step :=
  [mkIntStep 400 "active", mkIntStep 300 "cooldown"]

def lapsW2 : List Lap :=
  [mkLap 400, mkLap 400]

/-- C3: a plan whose two steps are both tagged warm-up, so every lap
classifies to the singleton `warmup` key. -/
def stepsC3 : List Step :=
  [mkIntStep 100 "warmup", mkIntStep 200 "warmup"]

def lapsC3 : List Lap :=
  [mkLap 100, mkLap 200, mkLap 250]

def inputC3 : FitInput :=
  ⟨lapsC3, stepsC3, []⟩

/-- C3 witness: three laps with distinct keys and a final lap of exactly
30 s (retained). -/
def inputW3 : FitInput :=
  ⟨[mkLap 100, mkLap 300, mkLap 30],
   [mkTimedStep 100, mkTimedStep 300, mkTimedStep 30], []⟩

def mW3 : List (String × Block) :=
  match build_blocks_from_fit inputW3 with
  | .ok m => m
  | .error _ => []

/-- C4 counterexample: a record whose Stryd `"Power"` field is NaN. -/
def recNaN : RawRecord :=
  { RawRecord.empty with timestamp := some 0, power_stryd := some (.num .nan) }

/-- C4 witness: a plain record with finite power 250 W, form power 80 W,
heart rate 150 and cadence 90. -/
def recW4 : RawRecord :=
  { RawRecord.empty with
      timestamp := some 0,
      power_stryd := some (.num (.fin 250)),
      form_power_stryd := some (.num (.fin 80)),
      heart_rate := some (.num (.fin 150)),
      cadence := some (.num (.fin 90)) }

/-- The sample `extract_records` emits for `recW4` (the form-power ratio is
derived as 80/250). -/
def sampleW4 : Sample :=
  ⟨0, some (.fin 250), some (.num (.fin 150)), some (.fin 80), none, none,
   none, none, none, some (.fin 90), none, some (.fin (8 / 25))⟩

/-- C7 counterexample: 20 samples spanning 570 s whose heart rate rises
strictly but only by microscopic steps, so the rounded drift is 0.00. -/
def recsTiny : List BRec :=
  (List.range 20).map fun i => ⟨30 * i, none, some (140 + (i : ℚ) / 1000000)⟩

/-- C7 witness: heart rate rising linearly from 140 to 160 bpm, one sample
per minute over a 20-minute block. -/
def recsLin : List BRec :=
  (List.range 21).map fun i => ⟨60 * i, none, some (140 + (i : ℚ))⟩

/-- The tail of `driftValid recsLin` after its head `(0, 140)`. -/
def restLin : List (ℚ × ℚ) :=
  (List.range 20).map fun i => (60 * ((i : ℚ) + 1), 141 + (i : ℚ))

/-- C8: a power-target step whose low target value is not numerically
coercible. -/
def stepBadTarget : Step :=
  { Step.empty with
      target_type := some "power",
      custom_target_value_low := some .bad,
      custom_target_value_high := some (.num (.fin 220)) }

/-- C10 witness: a two-zone table. -/
def zdW : ZoneDef :=
  ⟨[("Z1", 0, 134), ("Z2", 135, 159)]⟩

/-- C10 witness: two in-zone samples and one above every zone. -/
def recsZW : List BRec :=
  [⟨0, none, some 120⟩, ⟨1, none, some 140⟩, ⟨2, none, some 200⟩]

/-! # Theorems -/

/-- C9: the analysis is refused with the no-laps error exactly when the
input contains no lap messages; with at least one lap present that refusal
cannot occur and block construction proceeds on the lap list (the result is
either a block mapping or the distinct in-construction decode failure). -/
theorem build_blocks_noLaps_iff (input : FitInput) :
    build_blocks_from_fit input = Except.error BuildError.noLaps ↔
      input.laps = [] := by
  unfold build_blocks_from_fit
  by_cases h : input.laps = []
  · simp [h]
  · simp only [if_neg h]
    constructor
    · intro hc
      split at hc <;> simp_all
    · intro hc
      exact absurd hc h

/-- C9 witness: the empty input is refused with the no-laps error. -/
theorem build_blocks_noLaps_iff_witness :
    build_blocks_from_fit ⟨[], [], []⟩ = Except.error BuildError.noLaps :=
  (build_blocks_noLaps_iff ⟨[], [], []⟩).mpr rfl

theorem buildZones_length (l : List ℚ) :
    ∀ (minb : ℚ) (i : ℕ), (buildZones l minb i).length = l.length := by
  induction l with
  | nil => intro minb i; rfl
  | cons a t ih => intro minb i; simpa [buildZones] using ih (a + 1) (i + 1)

theorem buildZones_min0 (l : List ℚ) (minb : ℚ) (i : ℕ) (z0 : String × ℚ × ℚ)
    (h : (buildZones l minb i).get? 0 = some z0) : z0.2.1 = minb := by
  cases l with
  | nil => simp [buildZones] at h
  | cons a t =>
    simp only [buildZones, List.get?_cons_zero, Option.some.injEq] at h
    rw [← h]

theorem buildZones_max (l : List ℚ) :
    ∀ (minb : ℚ) (i k : ℕ) (zk : String × ℚ × ℚ),
      (buildZones l minb i).get? k = some zk → l.get? k = some zk.2.2 := by
  induction l with
  | nil => intro _ _ k zk h; simp [buildZones] at h
  | cons a t ih =>
    intro minb i k zk h
    cases k with
    | zero =>
      simp only [buildZones, List.get?_cons_zero, Option.some.injEq] at h
      simp [← h]
    | succ k2 =>
      simp only [buildZones, List.get?_cons_succ] at h ⊢
      exact ih (a + 1) (i + 1) k2 zk h

theorem buildZones_adj (l : List ℚ) :
    ∀ (minb : ℚ) (i k : ℕ) (zi zj : String × ℚ × ℚ),
      (buildZones l minb i).get? k = some zi →
      (buildZones l minb i).get? (k + 1) = some zj →
      zj.2.1 = zi.2.2 + 1 := by
  induction l with
  | nil => intro _ _ k zi zj hi _; simp [buildZones] at hi
  | cons a t ih =>
    intro minb i k zi zj hi hj
    cases k with
    | zero =>
      simp only [buildZones, List.get?_cons_zero, Option.some.injEq] at hi
      simp only [buildZones, List.get?_cons_succ] at hj
      have := buildZones_min0 t (a + 1) (i + 1) zj hj
      rw [this, ← hi]
    | succ k2 =>
      simp only [buildZones, List.get?_cons_succ] at hi hj
      exact ih (a + 1) (i + 1) k2 zi zj hi hj

/-- C6: for every non-empty boundary list, however ordered, the produced
zone table is built over the ascending sort of the boundaries: as many zones
as boundaries, zone 1 starting at 0, each zone's upper bound the
corresponding sorted boundary, and each next zone's lower bound one more
than the previous upper bound. -/
theorem extract_hr_zones_spec (l : List ℚ) (zd : ZoneDef)
    (h : extract_hr_zones l = some zd) :
    List.Sorted (· ≤ ·) (List.insertionSort (· ≤ ·) l) ∧
    zd.zones.length = l.length ∧
    (∀ z0, zd.zones.get? 0 = some z0 → z0.2.1 = 0) ∧
    (∀ k zk sk, zd.zones.get? k = some zk →
        (List.insertionSort (· ≤ ·) l).get? k = some sk → zk.2.2 = sk) ∧
    (∀ k zi zj, zd.zones.get? k = some zi →
        zd.zones.get? (k + 1) = some zj → zj.2.1 = zi.2.2 + 1) := by
  unfold extract_hr_zones at h
  by_cases hl : l = []
  · simp [hl] at h
  · simp only [if_neg hl, Option.some.injEq] at h
    have hz : zd.zones = buildZones (List.insertionSort (· ≤ ·) l) 0 0 := by
      rw [← h]
    refine ⟨List.sorted_insertionSort _ l, ?_, ?_, ?_, ?_⟩
    · rw [hz, buildZones_length, List.length_insertionSort]
    · intro z0 h0
      exact buildZones_min0 _ 0 0 z0 (hz ▸ h0)
    · intro k zk sk hk hs
      have := buildZones_max _ 0 0 k zk (hz ▸ hk)
      rw [this] at hs
      exact Option.some.inj hs
    · intro k zi zj hi hj
      exact buildZones_adj _ 0 0 k zi zj (hz ▸ hi) (hz ▸ hj)

/-- C6 witness: the boundary pair (159, 134) yields zones
`Z1 = [0, 134]`, `Z2 = [135, 159]`. -/
theorem extract_hr_zones_spec_witness :
    (∀ z0, (ZoneDef.mk [("Z1", 0, 134), ("Z2", 135, 159)]).zones.get? 0 =
        some z0 → z0.2.1 = 0) ∧
    extract_hr_zones [159, 134] =
      some (ZoneDef.mk [("Z1", 0, 134), ("Z2", 135, 159)]) := by
  have h : extract_hr_zones [159, 134] =
      some (ZoneDef.mk [("Z1", 0, 134), ("Z2", 135, 159)]) := by decide
  exact ⟨(extract_hr_zones_spec [159, 134] _ h).2.2.1, h⟩

theorem band_counts (tmin tmax : EF) (recs : List BRec) :
    ∀ c : ℕ × ℕ × ℕ,
      recs.foldl (bandFoldStep tmin tmax) c =
        (c.1 + recs.countP (isBelowSample tmin),
         c.2.1 + recs.countP (isWithinSample tmin tmax),
         c.2.2 + recs.countP (isAboveSample tmin tmax)) := by
  induction recs with
  | nil => intro c; simp
  | cons r t ih =>
    intro c
    rw [List.foldl_cons, ih]
    cases hp : r.power with
    | none =>
      simp [List.countP_cons, isBelowSample, isWithinSample, isAboveSample,
        bandFoldStep, hp]
    | some v =>
      cases v with
      | bad =>
        simp [List.countP_cons, isBelowSample, isWithinSample, isAboveSample,
          bandFoldStep, hp]
      | num e =>
        by_cases h1 : efLt e tmin
        · simp [List.countP_cons, isBelowSample, isWithinSample, isAboveSample,
            bandFoldStep, hp, h1, Prod.ext_iff]
          omega
        · by_cases h2 : efLt tmax e
          · simp [List.countP_cons, isBelowSample, isWithinSample,
              isAboveSample, bandFoldStep, hp, h1, h2, Prod.ext_iff]
            omega
          · simp [List.countP_cons, isBelowSample, isWithinSample,
              isAboveSample, bandFoldStep, hp, h1, h2, Prod.ext_iff]
            omega

theorem band_partition (tmin tmax : EF) (recs : List BRec) :
    recs.countP (isBelowSample tmin) + recs.countP (isWithinSample tmin tmax) +
      recs.countP (isAboveSample tmin tmax) =
      recs.countP isValidPowerSample := by
  induction recs with
  | nil => rfl
  | cons r t ih =>
    simp only [List.countP_cons]
    cases hp : r.power with
    | none =>
      simp [isBelowSample, isWithinSample, isAboveSample, isValidPowerSample,
        hp]
      omega
    | some v =>
      cases v with
      | bad =>
        simp [isBelowSample, isWithinSample, isAboveSample, isValidPowerSample,
          hp]
        omega
      | num e =>
        by_cases h1 : efLt e tmin
        · simp [isBelowSample, isWithinSample, isAboveSample,
            isValidPowerSample, hp, h1]
          omega
        · by_cases h2 : efLt tmax e
          · simp [isBelowSample, isWithinSample, isAboveSample,
              isValidPowerSample, hp, h1, h2]
            omega
          · simp [isBelowSample, isWithinSample, isAboveSample,
              isValidPowerSample, hp, h1, h2]
            omega

/-- C5: the band statistics are exactly the claim's percentages — a sample
is below when strictly below the band, above when strictly above it, and
within otherwise (so inclusive bounds count as within); the percentages are
those three counts over the valid-sample count, each rounded to one decimal;
and both an empty block and a block with no valid power sample produce
`(0.0, 0.0, 0.0)` rather than an absent value (the function is total, so no
error is possible). -/
theorem compute_power_band_stats_spec (recs : List BRec) (tmin tmax : EF) :
    recs.countP (isBelowSample tmin) + recs.countP (isWithinSample tmin tmax) +
        recs.countP (isAboveSample tmin tmax) =
        recs.countP isValidPowerSample ∧
    compute_power_band_stats recs tmin tmax =
      (if recs.countP isValidPowerSample = 0 then ((0 : ℚ), (0 : ℚ), (0 : ℚ))
       else
        (roundTo 1 (100 * recs.countP (isBelowSample tmin) /
            recs.countP isValidPowerSample),
         roundTo 1 (100 * recs.countP (isWithinSample tmin tmax) /
            recs.countP isValidPowerSample),
         roundTo 1 (100 * recs.countP (isAboveSample tmin tmax) /
            recs.countP isValidPowerSample))) ∧
    (∀ a b q : ℚ,
      isWithinSample (.fin a) (.fin b) ⟨0, some (.num (.fin q)), none⟩ = true ↔
        a ≤ q ∧ q ≤ b) := by
  refine ⟨band_partition tmin tmax recs, ?_, ?_⟩
  · unfold compute_power_band_stats
    by_cases hr : recs = []
    · subst hr; simp
    · simp only [if_neg hr]
      rw [band_counts tmin tmax recs (0, 0, 0)]
      simp only [Nat.zero_add]
      rw [band_partition tmin tmax recs]
  · intro a b q
    simp [isWithinSample, efLt, not_lt]

theorem zoneFoldStep_char (zd : ZoneDef) (acc : List (String × ℕ)) (r : BRec) :
    zoneFoldStep hr_zone_label zd acc r =
      match zoneSampleLabel zd r with
      | some z => if acc.any (·.1 = z) then bumpCount acc z else acc
      | none => acc := by
  unfold zoneFoldStep zoneSampleLabel
  cases hr : r.heart_rate with
  | none => rfl
  | some v =>
    by_cases hv : v = 0
    · simp [hv]
    · simp only [if_neg hv]
      cases hz : hr_zone_label zd v with
      | none => rfl
      | some z =>
        by_cases hz0 : z = ""
        · simp [hz0]
        · dsimp only
          rw [if_neg hz0]
          have hc : (¬z = "" ∧ (acc.any fun x => decide (x.1 = z)) = true) ↔
              ((acc.any fun x => decide (x.1 = z)) = true) := by simp [hz0]
          exact if_congr hc rfl rfl

theorem bumpCount_keys (l : List (String × ℕ)) (k : String) :
    (bumpCount l k).map (·.1) = l.map (·.1) := by
  unfold bumpCount
  rw [List.map_map]
  apply List.map_congr_left
  intro p _
  by_cases hp : p.1 = k
  · simp [hp]
  · simp [hp]

theorem bumpCount_any (l : List (String × ℕ)) (z k : String) :
    (bumpCount l z).any (·.1 = k) = l.any (·.1 = k) := by
  induction l with
  | nil => rfl
  | cons p t ih =>
    have hk1 : (if p.1 = z then (p.1, p.2 + 1) else p).1 = p.1 := by
      split <;> rfl
    simp only [bumpCount, List.map_cons, List.any_cons] at ih ⊢
    rw [hk1, ih]

theorem zoneFold_keys (zd : ZoneDef) (recs : List BRec) :
    ∀ acc : List (String × ℕ),
      (recs.foldl (zoneFoldStep hr_zone_label zd) acc).map (·.1) =
        acc.map (·.1) := by
  induction recs with
  | nil => intro acc; rfl
  | cons r t ih =>
    intro acc
    rw [List.foldl_cons, ih, zoneFoldStep_char]
    cases hz : zoneSampleLabel zd r with
    | none => rfl
    | some z =>
      dsimp only
      by_cases hm : acc.any (·.1 = z)
      · rw [if_pos hm, bumpCount_keys]
      · rw [if_neg hm]

theorem lookupC_bump (l : List (String × ℕ)) (z k : String) :
    lookupC (bumpCount l z) k =
      lookupC l k +
        (if k = z ∧ l.any (·.1 = k) = true then 1 else 0) := by
  induction l with
  | nil => simp [lookupC, bumpCount]
  | cons p t ih =>
    have hk1 : (if p.1 = z then (p.1, p.2 + 1) else p).1 = p.1 := by
      split <;> rfl
    simp only [bumpCount, List.map_cons, lookupC, List.any_cons] at ih ⊢
    rw [hk1]
    by_cases hp : p.1 = k
    · rw [if_pos hp, if_pos hp]
      by_cases hkz : k = z
      · have hpz : p.1 = z := hp.trans hkz
        rw [if_pos hpz,
          if_pos (show k = z ∧ (decide (p.1 = k) ||
            t.any fun x => decide (x.1 = k)) = true from
            ⟨hkz, by simp [hp]⟩)]
      · have hpz : ¬p.1 = z := fun he => hkz ((hp.symm.trans he))
        rw [if_neg hpz, if_neg (show ¬(k = z ∧ _) from fun hc => hkz hc.1)]
        omega
    · rw [if_neg hp, if_neg hp, ih]
      congr 1
      exact if_congr (by simp [hp]) rfl rfl

theorem zoneFold_lookup (zd : ZoneDef) (recs : List BRec) :
    ∀ (acc : List (String × ℕ)) (k : String),
      acc.any (·.1 = k) = true →
      lookupC (recs.foldl (zoneFoldStep hr_zone_label zd) acc) k =
        lookupC acc k +
          recs.countP (fun r => zoneSampleLabel zd r == some k) := by
  induction recs with
  | nil => intro acc k _; simp
  | cons r t ih =>
    intro acc k hk
    rw [List.foldl_cons, zoneFoldStep_char]
    cases hz : zoneSampleLabel zd r with
    | none =>
      rw [ih acc k hk]
      simp [List.countP_cons, hz]
    | some z =>
      dsimp only
      by_cases hmem : acc.any (·.1 = z) = true
      · rw [if_pos hmem]
        have hk2 : (bumpCount acc z).any (·.1 = k) = true := by
          rw [bumpCount_any]; exact hk
        rw [ih (bumpCount acc z) k hk2, lookupC_bump]
        have hcp : List.countP (fun r2 => zoneSampleLabel zd r2 == some k)
            (r :: t) =
            List.countP (fun r2 => zoneSampleLabel zd r2 == some k) t +
              (if k = z then 1 else 0) := by
          rw [List.countP_cons]
          congr 1
          rw [hz]
          by_cases hkz : k = z
          · simp [hkz]
          · have hzk : ¬ z = k := fun he => hkz he.symm
            simp [hkz, hzk]
        rw [hcp]
        by_cases hkz : k = z
        · rw [if_pos ⟨hkz, hk⟩, if_pos hkz]
          omega
        · rw [if_neg (fun hc => hkz hc.1), if_neg hkz]
          omega
      · rw [if_neg hmem, ih acc k hk]
        have hzk : ¬ z = k := fun he => by
          rw [he] at hmem; exact hmem hk
        rw [List.countP_cons]
        have hf : (zoneSampleLabel zd r == some k) = false := by
          rw [hz]
          simpa using hzk
        rw [hf]
        simp

theorem bumpCount_sum (l : List (String × ℕ)) (z : String) :
    ((bumpCount l z).map (·.2)).sum =
      (l.map (·.2)).sum + (l.map (·.1)).count z := by
  induction l with
  | nil => rfl
  | cons p t ih =>
    have hk2 : (if p.1 = z then (p.1, p.2 + 1) else p).2 =
        p.2 + (if p.1 = z then 1 else 0) := by
      split <;> simp
    simp only [bumpCount, List.map_cons, List.sum_cons, List.count_cons] at ih ⊢
    rw [hk2, ih]
    by_cases hp : p.1 = z <;> simp [hp] <;> omega

theorem any_fst_mem {β : Type} (l : List (String × β)) (k : String) :
    l.any (·.1 = k) = true ↔ k ∈ l.map (·.1) := by
  induction l with
  | nil => simp
  | cons p t ih =>
    simp only [List.any_cons, List.map_cons, List.mem_cons, Bool.or_eq_true,
      decide_eq_true_eq, ih]
    constructor
    · rintro (h | h)
      · exact Or.inl h.symm
      · exact Or.inr h
    · rintro (h | h)
      · exact Or.inl h.symm
      · exact Or.inr h

theorem zoneFold_sum (zd : ZoneDef) (recs : List BRec) :
    ∀ acc : List (String × ℕ),
      (acc.map (·.1)).Nodup →
      (∀ r z, r ∈ recs → zoneSampleLabel zd r = some z →
        acc.any (·.1 = z) = true) →
      ((recs.foldl (zoneFoldStep hr_zone_label zd) acc).map (·.2)).sum =
        (acc.map (·.2)).sum + recs.countP (zoneCounted zd) := by
  induction recs with
  | nil => intro acc _ _; simp
  | cons r t ih =>
    intro acc hnd hcov
    rw [List.foldl_cons, zoneFoldStep_char]
    cases hz : zoneSampleLabel zd r with
    | none =>
      rw [ih acc hnd (fun r2 z h2 => hcov r2 z (List.mem_cons_of_mem r h2))]
      simp [List.countP_cons, zoneCounted, hz]
    | some z =>
      dsimp only
      have hm : acc.any (·.1 = z) = true := hcov r z (List.mem_cons_self r t) hz
      rw [if_pos hm]
      have hnd2 : ((bumpCount acc z).map (·.1)).Nodup := by
        rw [bumpCount_keys]; exact hnd
      have hcov2 : ∀ r2 z2, r2 ∈ t → zoneSampleLabel zd r2 = some z2 →
          (bumpCount acc z).any (·.1 = z2) = true := by
        intro r2 z2 h2 hz2
        rw [bumpCount_any]
        exact hcov r2 z2 (List.mem_cons_of_mem r h2) hz2
      rw [ih (bumpCount acc z) hnd2 hcov2, bumpCount_sum]
      have hc1 : (acc.map (·.1)).count z = 1 :=
        List.count_eq_one_of_mem hnd ((any_fst_mem acc z).mp hm)
      rw [hc1]
      simp [List.countP_cons, zoneCounted, hz]
      omega

theorem lookupC_skip (p : String × ℕ) (t : List (String × ℕ)) (k : String)
    (h : ¬ p.1 = k) : lookupC (p :: t) k = lookupC t k := by
  simp [lookupC, h]

theorem assoc_eq_keys_map (l : List (String × ℕ)) :
    ∀ ks : List String, l.map (·.1) = ks → ks.Nodup →
      l = ks.map fun k => (k, lookupC l k) := by
  induction l with
  | nil => intro ks h _; rw [← h]; rfl
  | cons p t ih =>
    intro ks h hnd
    rw [← h]
    simp only [List.map_cons]
    have hhead : lookupC (p :: t) p.1 = p.2 := by simp [lookupC]
    rw [hhead]
    have hnd2 : (t.map (·.1)).Nodup := by
      rw [← h] at hnd
      exact (List.nodup_cons.mp hnd).2
    have hni : p.1 ∉ t.map (·.1) := by
      rw [← h] at hnd
      exact (List.nodup_cons.mp hnd).1
    have htail : (t.map (·.1)).map (fun k => (k, lookupC (p :: t) k)) =
        (t.map (·.1)).map (fun k => (k, lookupC t k)) := by
      apply List.map_congr_left
      intro k hk
      have : ¬ p.1 = k := fun he => hni (he ▸ hk)
      rw [lookupC_skip p t k this]
    rw [htail, ← ih (t.map (·.1)) rfl hnd2]

theorem lookupC_zeros (zs : List (String × ℚ × ℚ)) (k : String) :
    lookupC (zs.map fun z => (z.1, 0)) k = 0 := by
  induction zs with
  | nil => rfl
  | cons z t ih =>
    simp only [List.map_cons, lookupC]
    split
    · rfl
    · exact ih

theorem hr_zone_label_mem (zd : ZoneDef) (v : ℚ) (z : String)
    (h : hr_zone_label zd v = some z) : z ∈ zd.zones.map (·.1) := by
  unfold hr_zone_label at h
  cases hf : zd.zones.find? fun zb => decide (zb.2.1 ≤ v) && decide (v ≤ zb.2.2) with
  | none => rw [hf] at h; simp at h
  | some zb =>
    rw [hf] at h
    have hz : zb.1 = z := by
      simpa using h
    have := List.mem_of_find?_eq_some hf
    rw [← hz]
    exact List.mem_map_of_mem (·.1) this

theorem zoneSampleLabel_mem (zd : ZoneDef) (r : BRec) (z : String)
    (h : zoneSampleLabel zd r = some z) : z ∈ zd.zones.map (·.1) := by
  unfold zoneSampleLabel at h
  cases hr : r.heart_rate with
  | none => rw [hr] at h; simp at h
  | some v =>
    rw [hr] at h
    by_cases hv : v = 0
    · simp [hv] at h
    · simp only [if_neg hv] at h
      cases hz : hr_zone_label zd v with
      | none => rw [hz] at h; simp at h
      | some z2 =>
        rw [hz] at h
        by_cases hz0 : z2 = ""
        · simp [hz0] at h
        · simp [hz0] at h
          exact h ▸ hr_zone_label_mem zd v z2 hz

/-- C10: in the heart-rate-zone distribution, a valid sample lying outside
every zone is excluded both from the per-zone counts and from the
percentage denominator — the reported percentages are counts over the
in-zone samples only — and when no valid sample classifies into any zone the
distribution is absent (`None`), not all-zero. -/
theorem compute_zone_distribution_spec (recs : List BRec) (zd : ZoneDef)
    (hnd : (zd.zones.map (·.1)).Nodup) :
    (compute_zone_distribution recs (some zd) hr_zone_label = none ↔
      recs.countP (zoneCounted zd) = 0) ∧
    (recs.countP (zoneCounted zd) ≠ 0 →
      compute_zone_distribution recs (some zd) hr_zone_label =
        some (zd.zones.map fun z =>
          (z.1 ++ "_pct",
           roundTo 1
             (100 * (recs.countP fun r => zoneSampleLabel zd r == some z.1) /
               recs.countP (zoneCounted zd))))) := by
  have hkeys0 : (zd.zones.map fun z => (z.1, (0 : ℕ))).map (·.1) =
      zd.zones.map (·.1) := by
    rw [List.map_map]
    rfl
  have hnd0 : ((zd.zones.map fun z => (z.1, (0 : ℕ))).map (·.1)).Nodup := by
    rw [hkeys0]; exact hnd
  have hcov : ∀ r z, r ∈ recs → zoneSampleLabel zd r = some z →
      (zd.zones.map fun z => (z.1, (0 : ℕ))).any (·.1 = z) = true := by
    intro r z _ hz
    rw [any_fst_mem, hkeys0]
    exact zoneSampleLabel_mem zd r z hz
  have hsum0 : ((zd.zones.map fun z => (z.1, (0 : ℕ))).map (·.2)).sum = 0 := by
    rw [List.map_map,
      show ((fun x : String × ℕ => x.2) ∘ fun z : String × ℚ × ℚ =>
        (z.1, (0 : ℕ))) = fun _ => (0 : ℕ) from rfl]
    simp
  have hsum : ((recs.foldl (zoneFoldStep hr_zone_label zd)
      (zd.zones.map fun z => (z.1, (0 : ℕ)))).map (·.2)).sum =
      recs.countP (zoneCounted zd) := by
    rw [zoneFold_sum zd recs _ hnd0 hcov, hsum0]
    simp
  unfold compute_zone_distribution
  constructor
  · constructor
    · intro h
      by_cases ht : ((recs.foldl (zoneFoldStep hr_zone_label zd)
          (zd.zones.map fun z => (z.1, (0 : ℕ)))).map (·.2)).sum = 0
      · rw [← hsum]; exact ht
      · simp only [if_neg ht] at h
        exact absurd h (by simp)
    · intro h
      have ht : ((recs.foldl (zoneFoldStep hr_zone_label zd)
          (zd.zones.map fun z => (z.1, (0 : ℕ)))).map (·.2)).sum = 0 := by
        rw [hsum]; exact h
      simp only [if_pos ht]
  · intro hT
    have ht : ¬ ((recs.foldl (zoneFoldStep hr_zone_label zd)
        (zd.zones.map fun z => (z.1, (0 : ℕ)))).map (·.2)).sum = 0 := by
      rw [hsum]; exact hT
    simp only [if_neg ht, Option.some.injEq]
    have hkeysF : (recs.foldl (zoneFoldStep hr_zone_label zd)
        (zd.zones.map fun z => (z.1, (0 : ℕ)))).map (·.1) =
        zd.zones.map (·.1) := by
      rw [zoneFold_keys, hkeys0]
    have hstruct := assoc_eq_keys_map _ _ hkeysF hnd
    rw [hsum]
    conv_lhs => rw [hstruct]
    rw [List.map_map, List.map_map]
    apply List.map_congr_left
    intro zb hzb
    have hmem : (zd.zones.map fun z => (z.1, (0 : ℕ))).any (·.1 = zb.1) = true := by
      rw [any_fst_mem, hkeys0]
      exact List.mem_map_of_mem (·.1) hzb
    have hlk := zoneFold_lookup zd recs _ zb.1 hmem
    rw [lookupC_zeros] at hlk
    simp only [Nat.zero_add] at hlk
    simp only [Function.comp]
    rw [hlk]

/-- C10 witness: for the two-zone table `zdW` and the samples `recsZW`
(one in Z1, one in Z2, one above every zone), the distribution is the
percentages over the two in-zone samples only. -/
theorem compute_zone_distribution_spec_witness :
    compute_zone_distribution recsZW (some zdW) hr_zone_label =
      some (zdW.zones.map fun z =>
        (z.1 ++ "_pct",
         roundTo 1
           (100 * (recsZW.countP fun r => zoneSampleLabel zdW r == some z.1) /
             recsZW.countP (zoneCounted zdW)))) :=
  (compute_zone_distribution_spec recsZW zdW (by decide)).2 (by decide)

/-- C8 counterexample: a step with a declared power target type and a
non-coercible low target value makes `extract_power_target` raise (the
uncaught `float()` exception), instead of degrading to an absent target
band. -/
theorem extract_power_target_raises_cex :
    extract_power_target stepBadTarget = Except.error () := by
  decide

/-- C8 amended: a vendor-field or sample-field decode failure degrades only
that one value — in particular the recovery-time decode of an `unknown_140`
message depends only on its `unknown_9` field, so a VO2max coercion failure
leaves it unaffected — but a numeric-coercion failure on a present
power-target pair raises an exception that aborts the surrounding
computation, rather than yielding an absent target band. -/
theorem decode_isolation_spec :
    (∀ m m2 : Msg140, m.unknown_9 = m2.unknown_9 →
      (decode140 [m] (none, none)).2 = (decode140 [m2] (none, none)).2) ∧
    (∀ (s : Step) (lv hv : Val),
      (if s.custom_target_power_low = none ∨
          s.custom_target_power_high = none then
        (s.custom_target_value_low, s.custom_target_value_high)
       else (s.custom_target_power_low, s.custom_target_power_high)) =
        (some lv, some hv) →
      (lv = .bad ∨ hv = .bad) →
      (match s.target_type with
       | some t => sLower t = "power"
       | none => True) →
      extract_power_target s = Except.error ()) := by
  constructor
  · intro m m2 h9
    have h1 : decode140 [m] (none, none) = decode140Step (none, none) m := by
      simp only [decode140]
      split <;> rfl
    have h2 : decode140 [m2] (none, none) = decode140Step (none, none) m2 := by
      simp only [decode140]
      split <;> rfl
    rw [h1, h2]
    unfold decode140Step
    dsimp only
    rw [h9]
  · intro s lv hv hlh hbad htt
    simp only [extract_power_target]
    rw [hlh]
    dsimp only
    have htt2 : (match s.target_type with
        | some t => sLower t != "power"
        | none => false) = false := by
      cases ht : s.target_type with
      | none => rfl
      | some t =>
        rw [ht] at htt
        simpa using htt
    rw [htt2]
    simp only [Bool.false_eq_true, if_false]
    rcases hbad with hb | hb
    · rw [hb]
    · rw [hb]
      cases lv with
      | num e => rfl
      | bad => rfl

/-- C8 witness: a VO2max coercion failure (versus a successful decode)
leaves the decoded recovery time identical, and the concrete bad-target
step raises. -/
theorem decode_isolation_spec_witness :
    (decode140 [⟨some Val.bad, some (Val.num (EF.fin 100))⟩]
        (none, none)).2 =
      (decode140 [⟨some (Val.num (EF.fin 131072)), some (Val.num (EF.fin 100))⟩]
        (none, none)).2 ∧
    extract_power_target stepBadTarget = Except.error () :=
  ⟨decode_isolation_spec.1 _ _ rfl,
   decode_isolation_spec.2 stepBadTarget Val.bad (Val.num (EF.fin 220))
     (by decide) (Or.inl rfl) (show sLower "power" = "power" by decide)⟩

theorem okField_pyValid (x : Option EF) : okField (pyValid x) = true := by
  cases x with
  | none => rfl
  | some e =>
    cases e with
    | fin q =>
      by_cases hq : q = 0
      · simp [pyValid, okField, hq]
      · simp [pyValid, okField, hq]
    | nan => rfl
    | inf => rfl
    | ninf => rfl

theorem pyValid_shape (x : Option EF) (e : EF) (h : pyValid x = some e) :
    ∃ q : ℚ, e = .fin q ∧ q ≠ 0 := by
  cases x with
  | none => simp [pyValid] at h
  | some e2 =>
    cases e2 with
    | fin q =>
      by_cases hq : q = 0
      · simp [pyValid, hq] at h
      · simp only [pyValid, if_neg hq, Option.some.injEq] at h
        exact ⟨q, h.symm, hq⟩
    | nan => simp [pyValid] at h
    | inf => simp [pyValid] at h
    | ninf => simp [pyValid] at h

theorem efDiv_fin (a b : ℚ) (hb : b ≠ 0) :
    efDiv (.fin a) (.fin b) = some (.fin (a / b)) := by
  unfold efDiv
  rw [if_neg (by simp [hb])]

theorem okField_deriveRatio (x y p : Option EF) (hp : okFinOpt p = true) :
    okField (deriveRatio (pyValid x) (pyValid y) p) = true := by
  cases hx : pyValid x with
  | some e =>
    have hred : deriveRatio (some e) (pyValid y) p = some e := rfl
    rw [hred, ← hx]
    exact okField_pyValid x
  | none =>
    cases hy : pyValid y with
    | none =>
      have hred : deriveRatio none none p = none := by
        cases p <;> rfl
      rw [hred]
      rfl
    | some f =>
      obtain ⟨a, hfa, ha⟩ := pyValid_shape y f hy
      cases p with
      | none => rfl
      | some pw =>
        have hred : deriveRatio none (some f) (some pw) =
            if pw ≠ .fin 0 then efDiv f pw else none := rfl
        rw [hred]
        cases pw with
        | fin b =>
          by_cases hb : b = 0
          · subst hb
            simp [okField]
          · rw [if_pos (by simp [hb]), hfa, efDiv_fin a b hb]
            simp [okField, div_ne_zero ha hb]
        | nan => exact absurd hp (by simp [okFinOpt, efFinite])
        | inf => exact absurd hp (by simp [okFinOpt, efFinite])
        | ninf => exact absurd hp (by simp [okFinOpt, efFinite])

theorem okField_deriveAirPct (x y p : Option EF) (hp : okFinOpt p = true) :
    okField (deriveAirPct (pyValid x) (pyValid y) p) = true := by
  cases hx : pyValid x with
  | some e =>
    have hred : deriveAirPct (some e) (pyValid y) p = some e := rfl
    rw [hred, ← hx]
    exact okField_pyValid x
  | none =>
    cases hy : pyValid y with
    | none =>
      have hred : deriveAirPct none none p = none := by
        cases p <;> rfl
      rw [hred]
      rfl
    | some f =>
      obtain ⟨a, hfa, ha⟩ := pyValid_shape y f hy
      cases p with
      | none => rfl
      | some pw =>
        have hred : deriveAirPct none (some f) (some pw) =
            if pw ≠ .fin 0 then efDiv (efMul (.fin 100) f) pw else none := rfl
        rw [hred]
        cases pw with
        | fin b =>
          by_cases hb : b = 0
          · subst hb
            simp [okField]
          · rw [if_pos (by simp [hb]), hfa]
            have hmul : efMul (.fin 100) (.fin a) = .fin (100 * a) := rfl
            rw [hmul, efDiv_fin (100 * a) b hb]
            have h100 : (100 : ℚ) * a ≠ 0 := mul_ne_zero (by norm_num) ha
            simp [okField, div_ne_zero h100 hb]
        | nan => exact absurd hp (by simp [okFinOpt, efFinite])
        | inf => exact absurd hp (by simp [okFinOpt, efFinite])
        | ninf => exact absurd hp (by simp [okFinOpt, efFinite])

theorem normalizeRecord_ok (r : RawRecord) (s : Sample)
    (h : normalizeRecord r = some s) :
    sampleDirectOK s = true ∧
      (okFinOpt s.power = true → sampleNineOK s = true) := by
  unfold normalizeRecord at h
  cases ht : r.timestamp with
  | none => rw [ht] at h; exact absurd h (by simp)
  | some ts =>
    rw [ht] at h
    simp only [Option.some.injEq] at h
    subst h
    constructor
    · simp [sampleDirectOK, okField_pyValid]
    · intro hp
      simp only [sampleNineOK, Bool.and_eq_true]
      refine ⟨⟨⟨⟨⟨⟨⟨⟨?_, ?_⟩, ?_⟩, ?_⟩, ?_⟩, ?_⟩, ?_⟩, ?_⟩, ?_⟩ <;>
        first
          | exact okField_pyValid _
          | exact okField_deriveAirPct _ _ _ hp
          | exact okField_deriveRatio _ _ _ hp

/-- C4 counterexample: a record whose `"Power"` field holds NaN is emitted
with that NaN power intact, refuting the claim that no emitted sample
carries a non-finite value in any field. -/
theorem extract_records_nonfinite_cex :
    (extract_records [recNaN]).all sampleClaimOK = false := by
  decide

/-- C4 amended: the normalized series is always sorted by non-decreasing
timestamp; the seven directly-extracted zero-invalid fields are absent or
finite-and-nonzero in every emitted sample; and the two derivable fields
(air-power percentage, form-power ratio) are also absent or
finite-and-nonzero whenever the sample's power is absent or finite — but
power itself and the raw heart rate are never filtered, so a non-finite
power can be emitted and can poison the derived ratios. -/
theorem extract_records_sorted_valid (rs : List RawRecord) :
    List.Sorted tsLe (extract_records rs) ∧
    ∀ s ∈ extract_records rs,
      sampleDirectOK s = true ∧
        (okFinOpt s.power = true → sampleNineOK s = true) := by
  constructor
  · exact List.sorted_insertionSort tsLe _
  · intro s hs
    have hs2 : s ∈ rs.filterMap normalizeRecord :=
      ((List.perm_insertionSort tsLe _).mem_iff).mp hs
    obtain ⟨r, _, hnr⟩ := List.mem_filterMap.mp hs2
    exact normalizeRecord_ok r s hnr

/-- C4 witness: a plain finite record is emitted sorted with all nine
zero-invalid fields valid (the form-power ratio derived as 80/250). -/
theorem extract_records_sorted_valid_witness :
    List.Sorted tsLe (extract_records [recW4]) ∧
      sampleNineOK sampleW4 = true :=
  ⟨(extract_records_sorted_valid [recW4]).1,
   ((extract_records_sorted_valid [recW4]).2 sampleW4 (by decide)).2
     (by decide)⟩

theorem searchIdxs_range_spec (steps : List Step) (seq : List SeqEntry)
    (lapDur : ℚ) :
    ∀ n lo : ℕ,
      (∀ k, searchIdxs steps seq lapDur (List.range' lo n) = some k →
        ∃ c, lo ≤ c ∧ c < lo + n ∧
          seq.get? c = some (.step k) ∧
          |lapDur - stepDurationAt steps k| < 10 ∧
          (∀ c2, lo ≤ c2 → c2 < c → ¬ seqStepMatches steps seq lapDur c2)) ∧
      (searchIdxs steps seq lapDur (List.range' lo n) = none →
        ∀ c, lo ≤ c → c < lo + n → ¬ seqStepMatches steps seq lapDur c) := by
  intro n
  induction n with
  | zero =>
    intro lo
    constructor
    · intro k h
      simp [searchIdxs] at h
    · intro _ c hc1 hc2
      omega
  | succ n2 ih =>
    intro lo
    rw [List.range'_succ]
    constructor
    · intro k h
      cases hg : seq.get? lo with
      | some e =>
        cases e with
        | step k2 =>
          by_cases hm : |lapDur - stepDurationAt steps k2| < 10
          · have hk : k2 = k := by
              unfold searchIdxs at h
              rw [hg] at h
              dsimp only at h
              rw [if_pos hm] at h
              exact Option.some.inj h
            refine ⟨lo, le_refl lo, by omega, hk ▸ hg, hk ▸ hm, ?_⟩
            intro c2 h1 h2
            omega
          · have hrec : searchIdxs steps seq lapDur (List.range' (lo + 1) n2) =
                some k := by
              unfold searchIdxs at h
              rw [hg] at h
              dsimp only at h
              rw [if_neg hm] at h
              exact h
            obtain ⟨c, hc1, hc2, hc3, hc4, hc5⟩ := (ih (lo + 1)).1 k hrec
            refine ⟨c, by omega, by omega, hc3, hc4, ?_⟩
            intro c2 h1 h2
            by_cases he : c2 = lo
            · subst he
              rintro ⟨k3, hk3, hm3⟩
              rw [hg] at hk3
              have : k2 = k3 := by
                have := Option.some.inj hk3
                exact SeqEntry.step.inj this
              exact hm (this ▸ hm3)
            · exact hc5 c2 (by omega) h2
        | rep b =>
          have hrec : searchIdxs steps seq lapDur (List.range' (lo + 1) n2) =
              some k := by
            unfold searchIdxs at h
            rw [hg] at h
            exact h
          obtain ⟨c, hc1, hc2, hc3, hc4, hc5⟩ := (ih (lo + 1)).1 k hrec
          refine ⟨c, by omega, by omega, hc3, hc4, ?_⟩
          intro c2 h1 h2
          by_cases he : c2 = lo
          · subst he
            rintro ⟨k3, hk3, _⟩
            rw [hg] at hk3
            exact absurd (Option.some.inj hk3) (by intro hx; cases hx)
          · exact hc5 c2 (by omega) h2
      | none =>
        have hrec : searchIdxs steps seq lapDur (List.range' (lo + 1) n2) =
            some k := by
          unfold searchIdxs at h
          rw [hg] at h
          exact h
        obtain ⟨c, hc1, hc2, hc3, hc4, hc5⟩ := (ih (lo + 1)).1 k hrec
        refine ⟨c, by omega, by omega, hc3, hc4, ?_⟩
        intro c2 h1 h2
        by_cases he : c2 = lo
        · subst he
          rintro ⟨k3, hk3, _⟩
          rw [hg] at hk3
          exact absurd hk3 (by simp)
        · exact hc5 c2 (by omega) h2
    · intro h c hc1 hc2
      cases hg : seq.get? lo with
      | some e =>
        cases e with
        | step k2 =>
          by_cases hm : |lapDur - stepDurationAt steps k2| < 10
          · unfold searchIdxs at h
            rw [hg] at h
            dsimp only at h
            rw [if_pos hm] at h
            exact absurd h (by simp)
          · have hrec : searchIdxs steps seq lapDur
                (List.range' (lo + 1) n2) = none := by
              unfold searchIdxs at h
              rw [hg] at h
              dsimp only at h
              rw [if_neg hm] at h
              exact h
            by_cases he : c = lo
            · subst he
              rintro ⟨k3, hk3, hm3⟩
              rw [hg] at hk3
              have : k2 = k3 := SeqEntry.step.inj (Option.some.inj hk3)
              exact hm (this ▸ hm3)
            · exact (ih (lo + 1)).2 hrec c (by omega) (by omega)
        | rep b =>
          have hrec : searchIdxs steps seq lapDur
              (List.range' (lo + 1) n2) = none := by
            unfold searchIdxs at h
            rw [hg] at h
            exact h
          by_cases he : c = lo
          · subst he
            rintro ⟨k3, hk3, _⟩
            rw [hg] at hk3
            exact absurd (Option.some.inj hk3) (by intro hx; cases hx)
          · exact (ih (lo + 1)).2 hrec c (by omega) (by omega)
      | none =>
        have hrec : searchIdxs steps seq lapDur
            (List.range' (lo + 1) n2) = none := by
          unfold searchIdxs at h
          rw [hg] at h
          exact h
        by_cases he : c = lo
        · subst he
          rintro ⟨k3, hk3, _⟩
          rw [hg] at hk3
          exact absurd hk3 (by simp)
        · exact (ih (lo + 1)).2 hrec c (by omega) (by omega)

/-- C1 counterexample: with the cursor at position 0 on a 100 s step, a
300 s lap, no matching step in positions 0–4 and a 300 s step exactly five
positions after the cursor, the matcher falls back to the cursor's step
(index 0) instead of finding the step at position 5 — so the search window
does not reach five positions after the cursor. -/
theorem matchStep_window_cex :
    matchStep stepsC1 seqC1 ⟨0, []⟩ (mkLap 300) = ⟨0, [0]⟩ ∧
    seqC1.get? 5 = some (.step 5) ∧
    |(mkLap 300).total_timer_time.getD 0 - stepDurationAt stepsC1 5| < 10 ∧
    ¬|(mkLap 300).total_timer_time.getD 0 - stepDurationAt stepsC1 0| < 10 :=
  ⟨by decide, by decide, by decide, by decide⟩

/-- C1 amended: when the cursor entry is a step whose duration hint misses
the lap duration by 10 s or more, the matcher searches positions
`max(0, cursor − 5)` up to but excluding `min(len, cursor + 5)` — five
before through four after the cursor — assigns the first step found there
within the 10 s tolerance without moving the cursor, and falls back to the
cursor's step when the window holds no match. -/
theorem matchStep_mismatch_spec (steps : List Step) (seq : List SeqEntry)
    (st : MatchState) (lap : Lap) (j : ℕ)
    (hc : seq.get? st.seqIdx = some (.step j))
    (hmis : ¬|lap.total_timer_time.getD 0 - stepDurationAt steps j| < 10) :
    (matchStep steps seq st lap).seqIdx = st.seqIdx ∧
    ((∃ c k, st.seqIdx - 5 ≤ c ∧ c < min seq.length (st.seqIdx + 5) ∧
        seq.get? c = some (.step k) ∧
        |lap.total_timer_time.getD 0 - stepDurationAt steps k| < 10 ∧
        (∀ c2, st.seqIdx - 5 ≤ c2 → c2 < c →
          ¬ seqStepMatches steps seq (lap.total_timer_time.getD 0) c2) ∧
        (matchStep steps seq st lap).assigned = st.assigned ++ [k]) ∨
      ((∀ c, st.seqIdx - 5 ≤ c → c < min seq.length (st.seqIdx + 5) →
          ¬ seqStepMatches steps seq (lap.total_timer_time.getD 0) c) ∧
        (matchStep steps seq st lap).assigned = st.assigned ++ [j])) := by
  have hlt : st.seqIdx < seq.length := by
    rcases List.get?_eq_some.mp hc with ⟨h, _⟩
    exact h
  have hlohi : (st.seqIdx - 5) + (min seq.length (st.seqIdx + 5) -
      (st.seqIdx - 5)) = min seq.length (st.seqIdx + 5) := by
    omega
  have hred : matchStep steps seq st lap =
      match searchIdxs steps seq (lap.total_timer_time.getD 0)
        (List.range' (st.seqIdx - 5)
          (min seq.length (st.seqIdx + 5) - (st.seqIdx - 5))) with
      | some k => ⟨st.seqIdx, st.assigned ++ [k]⟩
      | none => ⟨st.seqIdx, st.assigned ++ [j]⟩ := by
    unfold matchStep
    rw [if_pos hlt, hc]
    dsimp only
    rw [if_neg hmis]
  cases hs : searchIdxs steps seq (lap.total_timer_time.getD 0)
      (List.range' (st.seqIdx - 5)
        (min seq.length (st.seqIdx + 5) - (st.seqIdx - 5))) with
  | some k =>
    rw [hs] at hred
    obtain ⟨c, hc1, hc2, hc3, hc4, hc5⟩ :=
      (searchIdxs_range_spec steps seq (lap.total_timer_time.getD 0) _
        (st.seqIdx - 5)).1 k hs
    rw [hlohi] at hc2
    refine ⟨by rw [hred], Or.inl ⟨c, k, hc1, hc2, hc3, hc4, hc5, ?_⟩⟩
    rw [hred]
  | none =>
    rw [hs] at hred
    have hnone := (searchIdxs_range_spec steps seq
      (lap.total_timer_time.getD 0) _ (st.seqIdx - 5)).2 hs
    rw [hlohi] at hnone
    refine ⟨by rw [hred], Or.inr ⟨hnone, ?_⟩⟩
    rw [hred]

/-- C1 witness: the amended theorem applied to the concrete mismatching
state of the counterexample. -/
theorem matchStep_mismatch_spec_witness :
    (matchStep stepsC1 seqC1 ⟨0, []⟩ (mkLap 300)).seqIdx = 0 :=
  (matchStep_mismatch_spec stepsC1 seqC1 ⟨0, []⟩ (mkLap 300) 0 (by decide)
    (by decide)).1

theorem pairwise_cross (l : List (ℚ × ℚ))
    (hp : List.Pairwise (fun a b => a.1 < b.1 ∧ a.2 < b.2) l) :
    ∀ a ∈ l, ∀ b ∈ l, a.1 < b.1 → a.2 < b.2 := by
  induction hp with
  | nil => intro a ha; simp at ha
  | @cons x t hx _ ih =>
    intro a ha b hb hab
    rcases List.mem_cons.mp ha with rfl | ha2
    · rcases List.mem_cons.mp hb with rfl | hb2
      · exact absurd hab (lt_irrefl _)
      · exact (hx b hb2).2
    · rcases List.mem_cons.mp hb with rfl | hb2
      · exact absurd hab (asymm (hx a ha2).1)
      · exact ih a ha2 b hb2 hab

theorem list_sum_lt (l : List ℚ) (c : ℚ) (hne : l ≠ [])
    (h : ∀ x ∈ l, x < c) : l.sum < c * l.length := by
  induction l with
  | nil => exact absurd rfl hne
  | cons x t ih =>
    simp only [List.sum_cons, List.length_cons]
    have hx := h x (List.mem_cons_self x t)
    by_cases ht : t = []
    · subst ht
      simp only [List.sum_nil, List.length_nil]
      push_cast
      linarith
    · have hs := ih ht fun y hy => h y (List.mem_cons_of_mem x hy)
      push_cast
      push_cast at hs
      linarith

theorem lt_list_sum (l : List ℚ) (c : ℚ) (hne : l ≠ [])
    (h : ∀ x ∈ l, c < x) : c * l.length < l.sum := by
  induction l with
  | nil => exact absurd rfl hne
  | cons x t ih =>
    simp only [List.sum_cons, List.length_cons]
    have hx := h x (List.mem_cons_self x t)
    by_cases ht : t = []
    · subst ht
      simp only [List.sum_nil, List.length_nil]
      push_cast
      linarith
    · have hs := ih ht fun y hy => h y (List.mem_cons_of_mem x hy)
      push_cast
      push_cast at hs
      linarith

theorem length_cast_pos (l : List ℚ) (hne : l ≠ []) :
    (0 : ℚ) < l.length :=
  Nat.cast_pos.mpr (List.length_pos.mpr hne)

theorem mean_lt_of_lt (l : List ℚ) (c : ℚ) (hne : l ≠ [])
    (h : ∀ x ∈ l, x < c) : listMean l < c := by
  unfold listMean
  rw [div_lt_iff₀ (length_cast_pos l hne)]
  have := list_sum_lt l c hne h
  linarith

theorem lt_mean_of_lt (l : List ℚ) (c : ℚ) (hne : l ≠ [])
    (h : ∀ x ∈ l, c < x) : c < listMean l := by
  unfold listMean
  rw [lt_div_iff₀ (length_cast_pos l hne)]
  have := lt_list_sum l c hne h
  linarith

theorem roundHalfEven_nonneg (x : ℚ) (hx : 0 ≤ x) : 0 ≤ roundHalfEven x := by
  unfold roundHalfEven
  have hf : (0 : ℤ) ≤ ⌊x⌋ := Int.floor_nonneg.mpr hx
  dsimp only
  split
  · exact hf
  · split
    · omega
    · split <;> omega

theorem roundTo_nonneg (n : ℕ) (x : ℚ) (hx : 0 ≤ x) : 0 ≤ roundTo n x := by
  unfold roundTo
  apply div_nonneg
  · exact_mod_cast roundHalfEven_nonneg (x * 10 ^ n) (by positivity)
  · positivity

theorem driftValid_pos (recs : List BRec) :
    ∀ v ∈ driftValid recs, 0 < v.2 := by
  intro v hv
  unfold driftValid at hv
  obtain ⟨r, _, hr⟩ := List.mem_filterMap.mp hv
  cases hh : r.heart_rate with
  | none => rw [hh] at hr; simp at hr
  | some h =>
    rw [hh] at hr
    dsimp only at hr
    by_cases hpos : 0 < h
    · rw [if_pos hpos] at hr
      have := Option.some.inj hr
      rw [← this]
      exact hpos
    · rw [if_neg hpos] at hr
      simp at hr

/-- C7 counterexample: twenty samples spanning 570 s whose heart rate rises
strictly at every step satisfy all the drift preconditions of an eligible
work block, yet the reported drift is 0.00 — the microscopic rise is
flushed to zero by the two-decimal rounding, so the reported value is not
strictly positive. -/
theorem blockDrift_rounds_to_zero_cex :
    blockDrift "work" (some 20) recsTiny = some 0 ∧
    List.Pairwise (fun a b : ℚ × ℚ => a.1 < b.1 ∧ a.2 < b.2)
      (driftValid recsTiny) ∧
    20 ≤ (driftValid recsTiny).length ∧
    (driftValid recsTiny).head? = some (0, 140) ∧
    (driftValid recsTiny).getLast? = some (570, 140 + 19 / 1000000) ∧
    (480 : ℚ) ≤ 570 - 0 :=
  ⟨by decide, by decide, by decide, by decide, by decide, by decide⟩

/-- C7 amended: for an eligible block (warm-up/work/float, duration ≥ 8
minutes) whose valid heart-rate samples satisfy the drift preconditions and
rise strictly over time, the drift before rounding is strictly positive and
the reported value is its two-decimal rounding, hence non-negative (the
linear 140→160 bpm example reports the strictly positive 7.24); the
reported value itself can still round to 0.00 for a sufficiently small
rise. -/
theorem blockDrift_positive (btype : String) (m : ℚ) (recs : List BRec)
    (v0 vL : ℚ × ℚ) (rest : List (ℚ × ℚ))
    (hv : driftValid recs = v0 :: rest)
    (hlast : (v0 :: rest).getLast? = some vL)
    (hsorted : List.Pairwise (fun a b => a.1 < b.1 ∧ a.2 < b.2) (v0 :: rest))
    (hlen : 20 ≤ (v0 :: rest).length)
    (hspan : 480 ≤ vL.1 - v0.1)
    (hh1 : 10 ≤ (((v0 :: rest).partition fun v =>
      decide (v.1 - v0.1 ≤ (vL.1 - v0.1) / 2)).1.map (·.2)).length)
    (hh2 : 10 ≤ (((v0 :: rest).partition fun v =>
      decide (v.1 - v0.1 ≤ (vL.1 - v0.1) / 2)).2.map (·.2)).length)
    (hbt : btype = "warmup" ∨ btype = "work" ∨ btype = "float")
    (hm : 8 ≤ m) :
    ∃ d : ℚ, 0 < d ∧
      blockDrift btype (some m) recs = some (roundTo 2 d) ∧
      0 ≤ roundTo 2 d := by
  have hrne : recs ≠ [] := by
    intro he
    rw [he] at hv
    exact absurd hv.symm (by simp [driftValid])
  have hemp : recs.isEmpty = false := by
    cases recs with
    | nil => exact absurd rfl hrne
    | cons a t => rfl
  have hguard : blockDrift btype (some m) recs =
      compute_hr_drift_pct recs := by
    unfold blockDrift
    rcases hbt with h | h | h <;> subst h <;> simp [hemp, hm]
  rw [hguard]
  simp only [compute_hr_drift_pct]
  rw [if_neg hrne, hv]
  rw [if_neg (by omega : ¬ (v0 :: rest).length < 20)]
  have hsle : List.Sorted pairTsLe (v0 :: rest) :=
    hsorted.imp fun h => le_of_lt h.1
  rw [List.Sorted.insertionSort_eq hsle]
  rw [hlast]
  dsimp only
  rw [if_neg (by linarith : ¬ vL.1 - v0.1 < 480)]
  have hpart := List.partition_eq_filter_filter
    (fun v : ℚ × ℚ => decide (v.1 - v0.1 ≤ (vL.1 - v0.1) / 2)) (v0 :: rest)
  set p : ℚ × ℚ → Bool := fun v => decide (v.1 - v0.1 ≤ (vL.1 - v0.1) / 2)
    with hp
  have hl1ne : ((v0 :: rest).partition p).1.map (·.2) ≠ [] := by
    intro he
    rw [he] at hh1
    simp at hh1
  have hl2ne : ((v0 :: rest).partition p).2.map (·.2) ≠ [] := by
    intro he
    rw [he] at hh2
    simp at hh2
  rw [if_neg (by push_neg; exact ⟨by omega, by omega⟩)]
  have hcross : ∀ x ∈ ((v0 :: rest).partition p).1.map (·.2),
      ∀ y ∈ ((v0 :: rest).partition p).2.map (·.2), x < y := by
    intro x hx y hy
    rw [hpart] at hx hy
    simp only [List.mem_map] at hx hy
    obtain ⟨a, ha, hax⟩ := hx
    obtain ⟨b, hb, hby⟩ := hy
    have hamem := List.mem_of_mem_filter ha
    have hbmem := List.mem_of_mem_filter hb
    have hap : p a = true := List.of_mem_filter ha
    have hbp0 : (not ∘ p) b = true := List.of_mem_filter hb
    have hbp : (!p b) = true := hbp0
    have ha1 : a.1 - v0.1 ≤ (vL.1 - v0.1) / 2 := by
      rw [hp] at hap
      exact of_decide_eq_true hap
    have hb1 : ¬ (b.1 - v0.1 ≤ (vL.1 - v0.1) / 2) := by
      rw [hp] at hbp
      simp only [Bool.not_eq_true'] at hbp
      exact of_decide_eq_false hbp
    have hab : a.1 < b.1 := by
      push_neg at hb1
      linarith
    have := pairwise_cross (v0 :: rest) hsorted a hamem b hbmem hab
    rw [hax, hby] at this
    exact this
  have hpos1 : ∀ x ∈ ((v0 :: rest).partition p).1.map (·.2), 0 < x := by
    intro x hx
    rw [hpart] at hx
    simp only [List.mem_map] at hx
    obtain ⟨a, ha, hax⟩ := hx
    have hamem := List.mem_of_mem_filter ha
    rw [← hv] at hamem
    have := driftValid_pos recs a hamem
    rw [hax] at this
    exact this
  have hmean1pos : 0 < listMean (((v0 :: rest).partition p).1.map (·.2)) :=
    lt_mean_of_lt _ 0 hl1ne hpos1
  have hmean12 : listMean (((v0 :: rest).partition p).1.map (·.2)) <
      listMean (((v0 :: rest).partition p).2.map (·.2)) := by
    apply lt_mean_of_lt _ _ hl2ne
    intro y hy
    exact mean_lt_of_lt _ y hl1ne fun x hx => hcross x hx y hy
  rw [if_neg (by linarith : ¬ listMean (((v0 :: rest).partition p).1.map
    (·.2)) ≤ 0)]
  refine ⟨(listMean (((v0 :: rest).partition p).2.map (·.2)) /
      listMean (((v0 :: rest).partition p).1.map (·.2)) - 1) * 100,
    ?_, rfl, ?_⟩
  · have h1 : 1 < listMean (((v0 :: rest).partition p).2.map (·.2)) /
        listMean (((v0 :: rest).partition p).1.map (·.2)) :=
      (one_lt_div hmean1pos).mpr hmean12
    nlinarith
  · apply roundTo_nonneg
    have h1 : 1 < listMean (((v0 :: rest).partition p).2.map (·.2)) /
        listMean (((v0 :: rest).partition p).1.map (·.2)) :=
      (one_lt_div hmean1pos).mpr hmean12
    nlinarith

/-- C7 witness: the linear 140→160 bpm scenario over 20 minutes produces a
strictly positive unrounded drift and a non-negative reported value. -/
theorem blockDrift_positive_witness :
    ∃ d : ℚ, 0 < d ∧
      blockDrift "work" (some 20) recsLin = some (roundTo 2 d) ∧
      0 ≤ roundTo 2 d :=
  blockDrift_positive "work" 20 recsLin (0, 140) (1200, 160) restLin
    (by decide) (by decide) (by decide) (by decide) (by decide) (by decide)
    (by decide) (Or.inr (Or.inl rfl)) (by decide)

theorem lapIsReal_ge_len (laps : List Lap) (k : ℕ) (h : laps.length ≤ k) :
    lapIsReal laps k = false := by
  unfold lapIsReal
  rw [List.get?_eq_none.mpr h]
  rfl

theorem findLastRealLapFrom_spec (laps : List Lap) :
    ∀ m, (∃ i, i ≤ m ∧ lapIsReal laps i = true) →
      lapIsReal laps (findLastRealLapFrom laps m) = true ∧
      (∀ i, findLastRealLapFrom laps m < i → i ≤ m →
        lapIsReal laps i = false) := by
  intro m
  induction m with
  | zero =>
    rintro ⟨i, hi, hreal⟩
    have h0 : i = 0 := by omega
    subst h0
    refine ⟨by simpa [findLastRealLapFrom] using hreal, ?_⟩
    intro i h1 h2
    omega
  | succ m2 ih =>
    rintro ⟨i, hi, hreal⟩
    by_cases hc : lapIsReal laps (m2 + 1) = true
    · refine ⟨by simp [findLastRealLapFrom, hc], ?_⟩
      intro i2 h1 h2
      simp only [findLastRealLapFrom, hc, if_true] at h1
      omega
    · have hex : ∃ i2, i2 ≤ m2 ∧ lapIsReal laps i2 = true := by
        refine ⟨i, ?_, hreal⟩
        rcases Nat.lt_or_ge i (m2 + 1) with h | h
        · omega
        · have he : i = m2 + 1 := by omega
          rw [he] at hreal
          exact absurd hreal hc
      obtain ⟨hr2, hmax⟩ := ih hex
      have hred : findLastRealLapFrom laps (m2 + 1) =
          findLastRealLapFrom laps m2 := by
        simp [findLastRealLapFrom, hc]
      refine ⟨by rw [hred]; exact hr2, ?_⟩
      intro i2 h1 h2
      rw [hred] at h1
      rcases Nat.lt_or_ge m2 i2 with h3 | h3
      · have he : i2 = m2 + 1 := by omega
        rw [he]
        exact Bool.eq_false_iff.mpr hc
      · exact hmax i2 h1 h3

/-- C2: whenever the flattened sequence has more than one entry, ends in a
step tagged cool-down, and the matching pass never assigned that step, the
post-pass force-assigns it to the last lap whose duration is at least 30
seconds; and in scenario C — a 4×(400 s work + 200 s float) repeat plan
followed by a 300 s cool-down, against 9 executed laps — the cool-down step
(index 3) ends up assigned to the final lap (index 8). -/
theorem cooldown_postPass_spec :
    (∀ (steps : List Step) (laps : List Lap) (j : ℕ) (cs : Step),
      1 < (buildStepSequence steps).length →
      (buildStepSequence steps).getLast? = some (.step j) →
      steps.get? j = some cs →
      cs.intensity = some "cooldown" →
      j ∉ matchLaps steps (buildStepSequence steps) laps →
      findLastRealLap laps <
        (matchLaps steps (buildStepSequence steps) laps).length →
      (∃ i, i < laps.length ∧ lapIsReal laps i = true) →
      (lapIsReal laps (findLastRealLap laps) = true ∧
       (∀ k2, findLastRealLap laps < k2 → lapIsReal laps k2 = false) ∧
       (assignSteps steps laps).get? (findLastRealLap laps) = some j)) ∧
    ((assignSteps stepsC2 lapsC2).get? 8 = some 3 ∧
      (stepsC2.get? 3).map Step.intensity = some (some "cooldown")) := by
  constructor
  · intro steps laps j cs hseq hlast hcs hint hnever hklt hex
    have hex2 : ∃ i, i ≤ laps.length - 1 ∧ lapIsReal laps i = true := by
      obtain ⟨i, hi, hreal⟩ := hex
      exact ⟨i, by omega, hreal⟩
    obtain ⟨hreal, hmax0⟩ :=
      findLastRealLapFrom_spec laps (laps.length - 1) hex2
    have hlen0 : 0 < laps.length := by
      obtain ⟨i, hi, _⟩ := hex
      omega
    refine ⟨hreal, ?_, ?_⟩
    · intro k2 h1
      rcases Nat.lt_or_ge k2 laps.length with h2 | h2
      · exact hmax0 k2 h1 (by omega)
      · exact lapIsReal_ge_len laps k2 h2
    · clear hnever
      simp only [assignSteps, postPass]
      rw [if_pos hseq, hlast]
      dsimp only
      rw [hcs]
      dsimp only
      rw [if_pos hint, if_pos hklt]
      rw [List.get?_eq_getElem?, List.getElem?_set_eq_of_lt]
      exact hklt
  · exact ⟨by decide, by decide⟩

/-- C2 witness: a two-step plan (400 s work, 300 s cool-down) against two
400 s laps — the matching pass assigns the work step to both laps, and the
post-pass reassigns the cool-down to the last ≥30 s lap. -/
theorem cooldown_postPass_spec_witness :
    (assignSteps stepsW2 lapsW2).get? (findLastRealLap lapsW2) = some 1 :=
  (cooldown_postPass_spec.1 stepsW2 lapsW2 1 (mkIntStep 300 "cooldown")
    (by decide) (by decide) (by decide) (by decide) (by decide) (by decide)
    ⟨1, by decide, by decide⟩).2.2

theorem upsert_keys {β : Type} (l : List (String × β)) (k : String) (v : β) :
    (upsert l k v).map (·.1) =
      if l.any (·.1 = k) then l.map (·.1) else l.map (·.1) ++ [k] := by
  unfold upsert
  split
  · next h =>
    rw [List.map_map]
    apply List.map_congr_left
    intro p _
    by_cases hp : p.1 = k
    · simp [hp]
    · simp [hp]
  · next h =>
    simp


theorem upsert_keys_nodup {β : Type} (l : List (String × β)) (k : String)
    (v : β) (h : (l.map (·.1)).Nodup) :
    ((upsert l k v).map (·.1)).Nodup := by
  rw [upsert_keys]
  split
  · exact h
  · next hany =>
    rw [List.nodup_append]
    refine ⟨h, List.nodup_singleton k, ?_⟩
    intro a ha hk
    rw [List.mem_singleton] at hk
    subst hk
    exact hany ((any_fst_mem l a).mpr ha)

theorem upsert_keys_mem {β : Type} (l : List (String × β)) (k0 : String)
    (v : β) (k : String) :
    k ∈ (upsert l k0 v).map (·.1) ↔ k ∈ l.map (·.1) ∨ k = k0 := by
  rw [upsert_keys]
  split
  · next h =>
    constructor
    · exact Or.inl
    · rintro (h2 | rfl)
      · exact h2
      · exact (any_fst_mem l k).mp h
  · next h =>
    simp [List.mem_append]

theorem lapBlock_skip (steps : List Step) (records : List BRec)
    (total_laps : ℕ) (lts : List ℕ) (i : ℕ) (lap : Lap)
    (h : lapSkippedB total_laps i lap = true) :
    lapBlock steps records total_laps lts i lap = .ok none := by
  unfold lapBlock
  rw [if_pos h]

theorem lapBlock_not_skip (steps : List Step) (records : List BRec)
    (total_laps : ℕ) (lts : List ℕ) (i : ℕ) (lap : Lap)
    (h : lapSkippedB total_laps i lap = false) :
    lapBlock steps records total_laps lts i lap = .error () ∨
      ∃ b, lapBlock steps records total_laps lts i lap =
        .ok (some (lapKeyOf steps lts total_laps i, b)) := by
  unfold lapBlock
  rw [if_neg (by simp [h])]
  cases he : extract_power_target (lapStepOf steps lts i) with
  | error e =>
    left
    cases e
    rfl
  | ok tp =>
    right
    obtain ⟨tmin, tmax⟩ := tp
    cases tmin with
    | some tn =>
      cases tmax with
      | some tx => exact ⟨_, rfl⟩
      | none => exact ⟨_, rfl⟩
    | none =>
      cases tmax with
      | some tx => exact ⟨_, rfl⟩
      | none => exact ⟨_, rfl⟩

theorem buildGo_aux (steps : List Step) (records : List BRec) (nLaps : ℕ)
    (lts : List ℕ) :
    ∀ (ps : List (ℕ × Lap)) (acc m : List (String × Block)),
      (ps.foldlM
        (fun acc p => do
          match ← lapBlock steps records nLaps lts p.1 p.2 with
          | none => pure acc
          | some (k, b) => pure (upsert acc k b))
        acc) = .ok m →
      (acc.map (·.1)).Nodup →
      ((m.map (·.1)).Nodup ∧
        ∀ k, k ∈ m.map (·.1) ↔
          k ∈ acc.map (·.1) ∨ k ∈ psKeys steps lts nLaps ps) := by
  intro ps
  induction ps with
  | nil =>
    intro acc m h hnd
    have hm : acc = m := by
      have h2 : (Except.ok acc : Except Unit (List (String × Block))) =
          .ok m := h
      simpa using h2
    subst hm
    exact ⟨hnd, fun k => by simp [psKeys]⟩
  | cons p pt ih =>
    intro acc m h hnd
    rw [List.foldlM_cons] at h
    cases hskip : lapSkippedB nLaps p.1 p.2 with
    | true =>
      rw [lapBlock_skip steps records nLaps lts p.1 p.2 hskip] at h
      have h2 : (pt.foldlM
          (fun acc p => do
            match ← lapBlock steps records nLaps lts p.1 p.2 with
            | none => pure acc
            | some (k, b) => pure (upsert acc k b))
          acc) = .ok m := h
      obtain ⟨hnd2, hiff⟩ := ih acc m h2 hnd
      refine ⟨hnd2, fun k => ?_⟩
      rw [hiff]
      have hps : psKeys steps lts nLaps (p :: pt) =
          psKeys steps lts nLaps pt := by
        simp [psKeys, List.filter_cons, hskip]
      rw [hps]
    | false =>
      rcases lapBlock_not_skip steps records nLaps lts p.1 p.2 hskip with
        herr | ⟨b, hok⟩
      · rw [herr] at h
        have h2 : (Except.error () : Except Unit (List (String × Block))) =
            .ok m := h
        exact absurd h2 (by simp)
      · rw [hok] at h
        have h2 : (pt.foldlM
            (fun acc p => do
              match ← lapBlock steps records nLaps lts p.1 p.2 with
              | none => pure acc
              | some (k, b) => pure (upsert acc k b))
            (upsert acc (lapKeyOf steps lts nLaps p.1) b)) = .ok m := h
        have hnd2 := upsert_keys_nodup acc (lapKeyOf steps lts nLaps p.1) b hnd
        obtain ⟨hnd3, hiff⟩ := ih _ m h2 hnd2
        refine ⟨hnd3, fun k => ?_⟩
        rw [hiff, upsert_keys_mem]
        have hps : psKeys steps lts nLaps (p :: pt) =
            lapKeyOf steps lts nLaps p.1 :: psKeys steps lts nLaps pt := by
          simp [psKeys, List.filter_cons, hskip]
        rw [hps]
        constructor
        · rintro ((h3 | h3) | h3)
          · exact Or.inl h3
          · exact Or.inr (h3 ▸ List.mem_cons_self _ _)
          · exact Or.inr (List.mem_cons_of_mem _ h3)
        · rintro (h3 | h3)
          · exact Or.inl (Or.inl h3)
          · rcases List.mem_cons.mp h3 with h4 | h4
            · exact Or.inl (Or.inr h4)
            · exact Or.inr h4

theorem lapSkippedB_iff (n i : ℕ) (lap : Lap) :
    lapSkippedB n i lap = true ↔
      (i = n - 1 ∧ ∃ d, lap.total_timer_time = some d ∧ d < 30) := by
  unfold lapSkippedB
  cases ht : lap.total_timer_time with
  | none => simp
  | some d => simp

/-- C3 counterexample: with a plan whose two steps are both tagged warm-up
and three laps all at least 30 s, all three retained laps classify to the
singleton `warmup` key, so the block mapping holds a single entry for three
retained laps — refuting "exactly one block per retained lap". -/
theorem blocks_per_lap_cex :
    (retainedIdx lapsC3).length = 3 ∧
    (build_blocks_from_fit inputC3).map List.length = Except.ok 1 :=
  ⟨by decide, by decide⟩

/-- C3 amended: the block mapping holds exactly one entry per *distinct
block key* among the retained laps — its keys are exactly the retained
laps' keys, without duplicates, so laps sharing the singleton
warm-up/cool-down keys collapse into one entry (the last one wins) — and a
lap is retained exactly when it is not a final lap with a present duration
strictly under 30 seconds (so a 30.0 s final lap is retained, a 29.9 s one
is dropped, and every non-final lap is retained whatever its duration). -/
theorem blocks_keys_spec (input : FitInput) (m : List (String × Block))
    (hok : build_blocks_from_fit input = .ok m) :
    (m.map (·.1)).Nodup ∧
    (∀ k, k ∈ m.map (·.1) ↔ k ∈ retainedKeys input.steps input.laps) ∧
    (∀ i, i ∈ retainedIdx input.laps ↔
      ∃ lap, (i, lap) ∈ input.laps.enum ∧
        ¬(i = input.laps.length - 1 ∧
          ∃ d, lap.total_timer_time = some d ∧ d < 30)) := by
  unfold build_blocks_from_fit at hok
  by_cases hl : input.laps = []
  · rw [if_pos hl] at hok
    exact absurd hok (by simp)
  · rw [if_neg hl] at hok
    have hgo : buildBlocksGo input.steps input.records input.laps
        (assignSteps input.steps input.laps) = .ok m := by
      cases hg : buildBlocksGo input.steps input.records input.laps
          (assignSteps input.steps input.laps) with
      | ok m2 =>
        rw [hg] at hok
        have : m2 = m := by simpa using hok
        rw [← this]
      | error e =>
        rw [hg] at hok
        exact absurd hok (by simp)
    unfold buildBlocksGo at hgo
    obtain ⟨hnd, hiff⟩ := buildGo_aux input.steps input.records
      input.laps.length (assignSteps input.steps input.laps)
      input.laps.enum [] m hgo (by simp)
    refine ⟨hnd, fun k => ?_, fun i => ?_⟩
    · rw [hiff k]
      simp only [List.map_nil, List.not_mem_nil, false_or]
      rfl
    · unfold retainedIdx
      simp only [List.mem_map, List.mem_filter]
      constructor
      · rintro ⟨p, ⟨hpm, hpf⟩, hpi⟩
        refine ⟨p.2, ?_, ?_⟩
        · rw [← hpi]
          exact hpm
        · rw [← hpi, ← lapSkippedB_iff input.laps.length p.1 p.2]
          simp only [Bool.not_eq_true'] at hpf
          rw [hpf]
          simp
      · rintro ⟨lap, hm2, hcond⟩
        refine ⟨(i, lap), ⟨hm2, ?_⟩, rfl⟩
        rw [← lapSkippedB_iff input.laps.length i lap] at hcond
        simp only [Bool.not_eq_true'] at hcond ⊢
        exact Bool.eq_false_iff.mpr hcond

/-- C3 witness: a three-lap input with distinct keys and a final lap of
exactly 30 s — the mapping's keys are exactly the retained keys, without
duplicates. -/
theorem blocks_keys_spec_witness :
    (mW3.map (·.1)).Nodup ∧
      ("cooldown" ∈ mW3.map (·.1) ↔
        "cooldown" ∈ retainedKeys inputW3.steps inputW3.laps) :=
  ⟨(blocks_keys_spec inputW3 mW3 (by decide)).1,
   (blocks_keys_spec inputW3 mW3 (by decide)).2.1 "cooldown"⟩

end Fit
